import Mathlib

/-
Verification of the photon-statistics processing engine of the UTBE
quantum-walk simulator (src/main.py).

The strawberryfields Gaussian backend is an external collaborator: the
program hands it a circuit description (an ordered list of mode
operations) and afterwards queries `state.fock_prob(detLabel)` for each
detection label.  The embedding therefore takes the backend as an
explicit function argument `backend : List Op → List ℕ → ℚ`: applied to
the circuit it yields the occupation-number probability function.
Real-valued quantities are modelled by ℚ (the idealized-real model;
floating point is out of scope).  Python dictionaries are modelled as
insertion-ordered association lists with unique keys, with assignment
`d[k] = v` replacing the value in place for an existing key and
appending a fresh key at the end, exactly like CPython dicts.
-/

namespace UTBEWalk

/-- Python `range(n)` for an `int` argument `n`: the list `[0, …, n-1]`,
empty when `n ≤ 0`.  Elements are non-negative, hence `ℕ`-valued. -/
def pyRange (n : ℤ) : List ℕ := List.range n.toNat

/-- Python `range(s-1, -1, -1)` for `s ≥ 0`: the descending list
`[s-1, s-2, …, 0]`, empty when `s = 0`. -/
def pyRangeDown (s : ℕ) : List ℕ := (List.range s).reverse

/-- The inner recursion of `generate_photon_outcomes` (src/main.py,
`generate_outcomes_helper`).  The Python function counts
`current_mode` upwards until it reaches `N`; the embedding recurses on
the remaining number of modes `N - current_mode` (the Python recursion
is entered only with `current_mode ≤ N`, i.e. `N ≥ 0`, which is the
regime every claim uses).  `photons_in_mode` ranges over
`range(min(max_photons + 1, remaining_photons + 1))`. -/
def generate_outcomes_helper (max_photons : ℤ) (current_outcome : List ℕ)
    (remaining_photons : ℤ) : ℕ → List (List ℕ)
  | 0 => if 0 ≤ remaining_photons then [current_outcome] else []
  | m + 1 =>
      (pyRange (min (max_photons + 1) (remaining_photons + 1))).flatMap
        (fun photons_in_mode =>
          generate_outcomes_helper max_photons (current_outcome ++ [photons_in_mode])
            (remaining_photons - photons_in_mode) m)

/-- `generate_photon_outcomes(N, max_photons=2)` (src/main.py): the list of
detection labels over `N` modes with at most `max_photons` photons in
total, produced by depth-first recursion over the modes. -/
def generate_photon_outcomes (N : ℤ) (max_photons : ℤ := 2) : List (List ℕ) :=
  generate_outcomes_helper max_photons [] max_photons N.toNat

/-- A Python probability dictionary: keys are detection-label tuples,
values are weights; insertion order is kept. -/
abbrev Dist := List (List ℕ × ℚ)

/-- Lookup of a key in a dictionary (first matching entry). -/
def dictGet (k : List ℕ) : Dist → Option ℚ
  | [] => none
  | p :: rest => if p.1 = k then some p.2 else dictGet k rest

/-- Python's `d.get(k, v)`: the stored value, or the default `v`. -/
def dictGetD (d : Dist) (k : List ℕ) (v : ℚ) : ℚ := (dictGet k d).getD v

/-- Python dict assignment `d[k] = v`: replaces the value of an existing
key in place, otherwise appends the new entry at the end. -/
def dictSet : Dist → List ℕ → ℚ → Dist
  | [], k, v => [(k, v)]
  | p :: rest, k, v => if p.1 = k then (k, v) :: rest else p :: dictSet rest k v

/-- `convolve_probabilities(prob1, prob2, max_photons=2)` (src/main.py):
for every pair of outcomes the labels are added element-wise
(`zip` truncates to the shorter label), the weights are multiplied, and
the product is accumulated under the summed label unless the summed
label's total exceeds `max_photons`. -/
def convolve_probabilities (prob1 prob2 : Dist) (max_photons : ℤ := 2) : Dist :=
  prob1.foldl (fun acc p1 =>
    prob2.foldl (fun acc2 p2 =>
      let convolved_outcome : List ℕ := List.zipWith (· + ·) p1.1 p2.1
      if (convolved_outcome.sum : ℤ) ≤ max_photons then
        dictSet acc2 convolved_outcome (dictGetD acc2 convolved_outcome 0 + p1.2 * p2.2)
      else acc2) acc) []

/-- `normalizeProbDict(p)` (src/main.py): every value is divided by the sum
of all values.  (No error path exists in the source: the empty dictionary
comes back empty, since the comprehension never runs.) -/
def normalizeProbDict (p : Dist) : Dist :=
  p.map (fun kv => (kv.1, kv.2 / (p.map (fun q => q.2)).sum))

/-- `filterProbDict(pDict, num_photons=2)` (src/main.py): keep the entries
whose label sums to `num_photons`, then normalize. -/
def filterProbDict (pDict : Dist) (num_photons : ℤ := 2) : Dist :=
  normalizeProbDict (pDict.filter (fun kv => decide ((kv.1.sum : ℤ) = num_photons)))

/-- Python slice `key[::2]`: elements at even positions. -/
def everyOther : List ℕ → List ℕ
  | [] => []
  | [a] => [a]
  | a :: _ :: rest => a :: everyOther rest

/-- `traceOverHV(pDict)` (src/main.py): accumulate each weight under the
even-position (`key[::2]`, H) and odd-position (`key[1::2]`, V)
sub-labels, then normalize the two dictionaries. -/
def traceOverHV (pDict : Dist) : Dist × Dist :=
  let acc := pDict.foldl (fun (acc : Dist × Dist) kv =>
    (dictSet acc.1 (everyOther kv.1) (dictGetD acc.1 (everyOther kv.1) 0 + kv.2),
     dictSet acc.2 (everyOther (kv.1.drop 1)) (dictGetD acc.2 (everyOther (kv.1.drop 1)) 0 + kv.2)))
    ([], [])
  (normalizeProbDict acc.1, normalizeProbDict acc.2)

/-- One strawberryfields operation as assembled by `computeWalkOutput`.
`BSgate` records `theta` in units of π (the source uses the literals
`-pi/4`, `pi/4`, `pi/2`); `phi` is stored as given (`0` or `gamma`).
`Coherent` records the squared amplitude: the source passes
`alpha = np.sqrt(alphaSq)`, an injective re-parameterization for the
non-negative amplitudes `np.sqrt` produces, kept squared to stay in ℚ. -/
inductive Op where
  | S2gate (r phi : ℚ) (a b : ℕ)
  | LossChannel (t : ℚ) (a : ℕ)
  | Coherent (alphaSq : ℚ) (a : ℕ)
  | BSgate (thetaOverPi phi : ℚ) (a b : ℕ)
  | ThermalLossChannel (t nbar : ℚ) (a : ℕ)
  deriving DecidableEq

/-- The circuit assembled inside `computeWalkOutput`'s
`with prog.context as q:` block (src/main.py lines 169-218), in program
order: initialization (two-mode squeezer onto herald+mode 1, loss
`etaFock` on mode 1, coherent state on mode 2), the walk steps
`stepNumber = 0 … nSteps` with the odd/even aBBO branches, the terminal
basis change when `nSteps` is odd, and the closing
`ThermalLossChannel(eta, n_noise)` on every mode including the herald. -/
def buildWalkProgram (nSteps : ℤ) (r alphaSq gamma eta n_noise etaFock : ℚ) : List Op :=
  let nModes : ℤ := 2 * nSteps + 2
  [Op.S2gate r 0 0 1, Op.LossChannel etaFock 1, Op.Coherent alphaSq 2]
  ++ (pyRange (nSteps + 1)).flatMap (fun stepNumber =>
      (if stepNumber % 2 = 1 then
        (pyRangeDown stepNumber).flatMap (fun k =>
          [Op.BSgate (-(1 : ℚ)/4) 0 (2*k+1) (2*k+2),
           Op.BSgate (-(1 : ℚ)/4) 0 (2*k+3) (2*k+4),
           Op.BSgate ((1 : ℚ)/2) gamma (2*k+2) (2*k+4),
           Op.BSgate ((1 : ℚ)/4) 0 (2*k+1) (2*k+2),
           Op.BSgate ((1 : ℚ)/4) 0 (2*k+3) (2*k+4)])
       else [])
      ++ (if stepNumber % 2 = 0 then
        (pyRangeDown stepNumber).flatMap (fun k =>
          [Op.BSgate ((1 : ℚ)/2) gamma (2*k+2) (2*k+4)])
       else []))
  ++ (if nSteps % 2 = 1 then
        (pyRange (nSteps + 1)).map (fun k => Op.BSgate (-(1 : ℚ)/4) 0 (2*k+1) (2*k+2))
      else [])
  ++ (pyRange (nModes + 1)).map (fun i => Op.ThermalLossChannel eta n_noise i)

/-- `computeWalkOutput(nSteps, r, alphaSq, eta, gamma, max_photons, n_noise,
etaFock=1)` (src/main.py): build the circuit, run the backend, and fill the
dictionary `pn` with `pn[label] = state.fock_prob([1] + label)` for every
enumerated label over `nModes = 2*nSteps + 2` detection modes. -/
def computeWalkOutput (backend : List Op → List ℕ → ℚ) (nSteps : ℤ)
    (r alphaSq eta gamma : ℚ) (max_photons : ℤ) (n_noise : ℚ) (etaFock : ℚ := 1) : Dist :=
  let nModes : ℤ := 2 * nSteps + 2
  let state := backend (buildWalkProgram nSteps r alphaSq gamma eta n_noise etaFock)
  let allLabels := generate_photon_outcomes nModes max_photons
  allLabels.foldl (fun pn label => dictSet pn label (state (1 :: label))) []

/-- `computeWalkOutputWithMM(nSteps, r, alphaSq, eta, gamma, mm, max_photons,
n_noise)` (src/main.py): the parallel branch with coherent intensity
`mm*alphaSq` and the heralded photon present, the perpendicular branch with
intensity `(1-mm)*alphaSq` and the heralded-photon input fully attenuated
(`etaFock = 0`), convolved (with `convolve_probabilities`' default
truncation `max_photons = 2`) and normalized. -/
def computeWalkOutputWithMM (backend : List Op → List ℕ → ℚ) (nSteps : ℤ)
    (r alphaSq eta gamma mm : ℚ) (max_photons : ℤ) (n_noise : ℚ) : Dist :=
  let pn_para := computeWalkOutput backend nSteps r (mm * alphaSq) eta gamma max_photons n_noise 1
  let pn_perp := computeWalkOutput backend nSteps r ((1 - mm) * alphaSq) eta gamma max_photons n_noise 0
  normalizeProbDict (convolve_probabilities pn_para pn_perp)

/-- One accumulation event: `d[k] = d.get(k, 0) + w`.  Both the inner loop
of `convolve_probabilities` and the loop of `traceOverHV` are folds of this
step over a list of key/weight events. -/
def accumStep (acc : Dist) (e : List ℕ × ℚ) : Dist :=
  dictSet acc e.1 (dictGetD acc e.1 0 + e.2)

/-- The (outcome-sum, weight-product) events generated by the nested loops
of `convolve_probabilities`, in iteration order. -/
def convEvents (prob1 prob2 : Dist) : List (List ℕ × ℚ) :=
  prob1.flatMap (fun p1 =>
    prob2.map (fun p2 => (List.zipWith (· + ·) p1.1 p2.1, p1.2 * p2.2)))

/-- Spec-side description (§4.2, claim C7): the −45° basis-change coupling
on the same-time-bin channel pair of time bin `b`. -/
def specBasisChange (b : ℕ) : Op := Op.BSgate (-(1 : ℚ)/4) 0 (2*b+1) (2*b+2)

/-- Spec-side description (§4.2, claim C7): the +45° inverse basis-change
coupling on the same-time-bin channel pair of time bin `b`. -/
def specInvBasisChange (b : ℕ) : Op := Op.BSgate ((1 : ℚ)/4) 0 (2*b+1) (2*b+2)

/-- Spec-side description (§4.2, claim C7): the time-shift coupling
(angle 90°, phase `gamma`) between the rotated channels of adjacent time
bins `k` and `k+1`. -/
def specTimeShift (gamma : ℚ) (k : ℕ) : Op := Op.BSgate ((1 : ℚ)/2) gamma (2*k+2) (2*k+4)

/-- Spec-side description (§4.2, claim C7): the block an odd step applies
for one value of `k`: the two −45° basis changes on the time-bin pairs `k`
and `k+1`, the time-shift coupling, then the two +45° inverse basis
changes. -/
def specOddStepBlock (gamma : ℚ) (k : ℕ) : List Op :=
  [specBasisChange k, specBasisChange (k+1), specTimeShift gamma k,
   specInvBasisChange k, specInvBasisChange (k+1)]

/-- Spec-side description (§4.2, claim C7): the operations of step `s`.
An odd step applies `specOddStepBlock` for `k = s-1` down to `0`; an even
step `s > 0` applies only the time-shift couplings for `k = s-1` down to
`0`; step `0` applies nothing. -/
def specStep (gamma : ℚ) (s : ℕ) : List Op :=
  if s % 2 = 1 then (pyRangeDown s).flatMap (specOddStepBlock gamma)
  else if s = 0 then []
  else (pyRangeDown s).flatMap (fun k => [specTimeShift gamma k])

/-- Spec-side description (§4.2, claim C7): when `nSteps` is odd, one extra
−45° basis-change coupling per time-bin pair. -/
def specTerminal (nSteps : ℤ) : List Op :=
  if nSteps % 2 = 1 then (pyRange (nSteps + 1)).map specBasisChange else []

/-- Spec-side description (§4.2, claim C7): the initialization stage —
herald pair squeezing, heralded-photon transmission, coherent source. -/
def specInit (r alphaSq etaFock : ℚ) : List Op :=
  [Op.S2gate r 0 0 1, Op.LossChannel etaFock 1, Op.Coherent alphaSq 2]

/-- Spec-side description (§4.2, claim C7): the closing loss+noise stage on
every channel including the herald. -/
def specClosing (eta n_noise : ℚ) (nModes : ℤ) : List Op :=
  (pyRange (nModes + 1)).map (Op.ThermalLossChannel eta n_noise)

/-- Spec-side description of the whole walk topology, assembled from the
state machine of §4.2 exactly as claim C7 words it. -/
def specWalkTopology (nSteps : ℤ) (r alphaSq gamma eta n_noise etaFock : ℚ) : List Op :=
  specInit r alphaSq etaFock
  ++ (pyRange (nSteps + 1)).flatMap (specStep gamma)
  ++ specTerminal nSteps
  ++ specClosing eta n_noise (2 * nSteps + 2)

/-- A concrete test backend for two detection modes (`nSteps = 0`).  It
inspects the circuit's second operation — the `LossChannel etaFock` on
mode 1 — to tell the perpendicular branch (`etaFock = 0`) from a branch
with the heralded photon present.  The perpendicular branch is a point
mass on the herald-plus-vacuum label; the other branch weights three
labels. -/
def mmTestBackend (prog : List Op) (label : List ℕ) : ℚ :=
  match prog with
  | _ :: Op.LossChannel etaFock _ :: _ =>
      if etaFock = 0 then (if label = [1, 0, 0] then 1/3 else 0)
      else if label = [1, 0, 0] then 1/2
      else if label = [1, 1, 0] then 1/8
      else if label = [1, 0, 1] then 1/16
      else 0
  | _ => 0

/-- A second concrete test backend for two detection modes: the branch with
the heralded photon present (`etaFock ≠ 0`) is a point mass on the
herald-plus-vacuum label, while the perpendicular branch weights three
labels (with weights different from `mmTestBackend`'s). -/
def mmTestBackendPara (prog : List Op) (label : List ℕ) : ℚ :=
  match prog with
  | _ :: Op.LossChannel etaFock _ :: _ =>
      if etaFock = 0 then
        if label = [1, 0, 0] then 1/2
        else if label = [1, 1, 0] then 1/4
        else if label = [1, 0, 1] then 1/8
        else 0
      else (if label = [1, 0, 0] then 1/3 else 0)
  | _ => 0

/-! ### The outcome enumerator -/

theorem mem_pyRange {p : ℕ} {z : ℤ} : p ∈ pyRange z ↔ (p : ℤ) < z := by
  simp only [pyRange, List.mem_range]
  omega

theorem generate_outcomes_helper_eq_map (max_photons : ℤ) :
    ∀ (m : ℕ) (cur : List ℕ) (rem : ℤ),
      generate_outcomes_helper max_photons cur rem m
        = (generate_outcomes_helper max_photons [] rem m).map (cur ++ ·) := by
  intro m
  induction m with
  | zero =>
      intro cur rem
      by_cases h : 0 ≤ rem <;> simp [generate_outcomes_helper, h]
  | succ m ih =>
      intro cur rem
      simp only [generate_outcomes_helper, List.map_flatMap]
      congr 1
      funext p
      rw [ih (cur ++ [p]), List.nil_append, ih [p], List.map_map]
      congr 1
      funext t
      simp [List.append_assoc]

theorem length_of_mem_generate_helper (max_photons : ℤ) :
    ∀ (m : ℕ) (rem : ℤ) (t : List ℕ),
      t ∈ generate_outcomes_helper max_photons [] rem m → t.length = m := by
  intro m
  induction m with
  | zero =>
      intro rem t ht
      by_cases h : 0 ≤ rem <;> simp [generate_outcomes_helper, h] at ht
      simp [ht]
  | succ m ih =>
      intro rem t ht
      simp only [generate_outcomes_helper, List.mem_flatMap] at ht
      obtain ⟨p, -, hp⟩ := ht
      rw [List.nil_append, generate_outcomes_helper_eq_map, List.mem_map] at hp
      obtain ⟨u, hu, rfl⟩ := hp
      simp [ih _ u hu]

theorem mem_generate_helper (max_photons : ℤ) :
    ∀ (m : ℕ) (rem : ℤ), 0 ≤ rem → rem ≤ max_photons →
      ∀ t : List ℕ,
        t ∈ generate_outcomes_helper max_photons [] rem m
          ↔ t.length = m ∧ (t.sum : ℤ) ≤ rem := by
  intro m
  induction m with
  | zero =>
      intro rem h0 _ t
      simp only [generate_outcomes_helper, if_pos h0, List.mem_singleton]
      constructor
      · rintro rfl; simp [h0]
      · rintro ⟨hlen, -⟩
        exact List.eq_nil_of_length_eq_zero hlen
  | succ m ih =>
      intro rem h0 hmax t
      simp only [generate_outcomes_helper, List.mem_flatMap]
      constructor
      · rintro ⟨p, hp, hmem⟩
        rw [List.nil_append, generate_outcomes_helper_eq_map, List.mem_map] at hmem
        obtain ⟨u, hu, rfl⟩ := hmem
        rw [mem_pyRange] at hp
        have hple : (p : ℤ) ≤ rem := by omega
        have h0' : 0 ≤ rem - p := by omega
        have hmax' : rem - p ≤ max_photons := by omega
        obtain ⟨hlen, hsum⟩ := (ih (rem - p) h0' hmax' u).mp hu
        refine ⟨by simp [hlen], ?_⟩
        have hps : (((p :: u).sum : ℕ) : ℤ) = (p : ℤ) + (u.sum : ℤ) := by
          simp [List.sum_cons]
        simp only [List.singleton_append]
        omega
      · rintro ⟨hlen, hsum⟩
        obtain ⟨p, u, rfl⟩ : ∃ p u, t = p :: u := by
          cases t with
          | nil => simp at hlen
          | cons p u => exact ⟨p, u, rfl⟩
        have hpsum : (p : ℤ) ≤ rem := by
          have : p ≤ (p :: u).sum := by simp [List.sum_cons]
          calc (p : ℤ) ≤ ((p :: u).sum : ℤ) := by exact_mod_cast this
            _ ≤ rem := hsum
        refine ⟨p, mem_pyRange.mpr (by omega), ?_⟩
        rw [List.nil_append, generate_outcomes_helper_eq_map, List.mem_map]
        refine ⟨u, (ih (rem - p) (by omega) (by omega) u).mpr ⟨by simpa using hlen, ?_⟩, rfl⟩
        have : (u.sum : ℤ) = ((p :: u).sum : ℤ) - p := by push_cast [List.sum_cons]; ring
        omega

theorem nodup_generate_helper (max_photons : ℤ) :
    ∀ (m : ℕ) (cur : List ℕ) (rem : ℤ),
      (generate_outcomes_helper max_photons cur rem m).Nodup := by
  intro m
  induction m with
  | zero =>
      intro cur rem
      by_cases h : 0 ≤ rem <;> simp [generate_outcomes_helper, h]
  | succ m ih =>
      intro cur rem
      simp only [generate_outcomes_helper]
      rw [List.nodup_flatMap]
      refine ⟨fun p _ => ih _ _, ?_⟩
      refine List.Pairwise.imp ?_ (List.nodup_range _)
      intro p q hpq t hpt hqt
      replace hpt : t ∈ generate_outcomes_helper max_photons (cur ++ [p]) (rem - p) m := hpt
      replace hqt : t ∈ generate_outcomes_helper max_photons (cur ++ [q]) (rem - q) m := hqt
      rw [generate_outcomes_helper_eq_map, List.mem_map] at hpt hqt
      obtain ⟨u, -, hu⟩ := hpt
      obtain ⟨v, -, hv⟩ := hqt
      rw [← hv] at hu
      have : [p] ++ u = [q] ++ v :=
        @List.append_cancel_left _ cur _ _ (by simpa [List.append_assoc] using hu)
      exact hpq (by simpa using congrArg (fun l => l.headI) this)

theorem sum_range_choose_sub (m : ℕ) :
    ∀ R : ℕ,
      ((List.range (R + 1)).map (fun p => (m + (R - p)).choose (R - p))).sum
        = (m + 1 + R).choose R := by
  intro R
  induction R with
  | zero => simp
  | succ R ih =>
      rw [List.range_succ_eq_map, List.map_cons, List.map_map, List.sum_cons]
      have hmap :
          (List.range (R + 1)).map
              ((fun p => (m + (R + 1 - p)).choose (R + 1 - p)) ∘ Nat.succ)
            = (List.range (R + 1)).map (fun p => (m + (R - p)).choose (R - p)) := by
        apply List.map_congr_left
        intro p _
        simp [Nat.succ_sub_succ]
      rw [hmap, ih]
      simp only [Nat.sub_zero]
      have e1 : m + 1 + (R + 1) = m + 1 + R + 1 := by omega
      have e2 : m + (R + 1) = m + 1 + R := by omega
      have hps := Nat.choose_succ_succ (m + 1 + R) R
      simp only [Nat.succ_eq_add_one] at hps
      rw [e1, e2]
      omega

theorem length_generate_helper (max_photons : ℤ) :
    ∀ (m R : ℕ), (R : ℤ) ≤ max_photons →
      (generate_outcomes_helper max_photons [] (R : ℤ) m).length = (m + R).choose R := by
  intro m
  induction m with
  | zero =>
      intro R _
      simp [generate_outcomes_helper, Nat.choose_self]
  | succ m ih =>
      intro R hR
      simp only [generate_outcomes_helper]
      have hmin : min (max_photons + 1) ((R : ℤ) + 1) = (R : ℤ) + 1 := by omega
      have hrange : pyRange ((R : ℤ) + 1) = List.range (R + 1) := by
        have htn : ((R : ℤ) + 1).toNat = R + 1 := by omega
        simp [pyRange, htn]
      rw [hmin, hrange, List.length_flatMap]
      have hmap :
          (List.range (R + 1)).map
              (List.length ∘ fun p =>
                generate_outcomes_helper max_photons ([] ++ [p]) ((R : ℤ) - ↑p) m)
            = (List.range (R + 1)).map (fun p => (m + (R - p)).choose (R - p)) := by
        apply List.map_congr_left
        intro p hp
        rw [List.mem_range] at hp
        have hcast : (R : ℤ) - (p : ℤ) = ((R - p : ℕ) : ℤ) := by omega
        simp only [Function.comp, List.nil_append, hcast]
        rw [generate_outcomes_helper_eq_map max_photons m [p], List.length_map]
        exact ih (R - p) (by omega)
      rw [hmap, sum_range_choose_sub]

/-- C5: for every `numChannels ≥ 0` and `maxPhotons ≥ 0`,
`generate_photon_outcomes` returns a duplicate-free list in which every
element is a tuple of length `numChannels` whose entries lie in
`[0, maxPhotons]` and sum to at most `maxPhotons`; it contains every such
tuple; its size is the closed-form count `(N + M).choose M` of bounded
integer compositions; and `numChannels = 0` yields exactly the single
empty tuple. -/
theorem generate_photon_outcomes_correct (N M : ℕ) :
    (∀ t ∈ generate_photon_outcomes (N : ℤ) (M : ℤ),
        t.length = N ∧ (∀ x ∈ t, x ≤ M) ∧ t.sum ≤ M) ∧
    (generate_photon_outcomes (N : ℤ) (M : ℤ)).Nodup ∧
    (∀ t : List ℕ, t.length = N → t.sum ≤ M →
        t ∈ generate_photon_outcomes (N : ℤ) (M : ℤ)) ∧
    (generate_photon_outcomes (N : ℤ) (M : ℤ)).length = (N + M).choose M ∧
    generate_photon_outcomes (0 : ℤ) (M : ℤ) = [[]] := by
  have hchar := mem_generate_helper (M : ℤ) N (M : ℤ) (by positivity)
    le_rfl
  have htopN : generate_photon_outcomes (N : ℤ) (M : ℤ)
      = generate_outcomes_helper (M : ℤ) [] (M : ℤ) N := by
    simp [generate_photon_outcomes, Int.toNat_ofNat]
  refine ⟨?_, ?_, ?_, ?_, ?_⟩
  · intro t ht
    rw [htopN] at ht
    obtain ⟨hlen, hsum⟩ := (hchar t).mp ht
    have hsum' : t.sum ≤ M := by exact_mod_cast hsum
    refine ⟨hlen, fun x hx => le_trans ?_ hsum', hsum'⟩
    exact List.single_le_sum (by simp) x hx
  · rw [htopN]; exact nodup_generate_helper _ _ _ _
  · intro t hlen hsum
    rw [htopN]
    exact (hchar t).mpr ⟨hlen, by exact_mod_cast hsum⟩
  · rw [htopN]
    exact length_generate_helper (M : ℤ) N M le_rfl
  · have h0 : ((0 : ℤ)).toNat = 0 := rfl
    rw [generate_photon_outcomes, h0, generate_outcomes_helper]
    simp

theorem generate_photon_outcomes_nodup (N max_photons : ℤ) :
    (generate_photon_outcomes N max_photons).Nodup :=
  nodup_generate_helper max_photons N.toNat [] max_photons

/-! ### Dictionary lemmas -/

theorem dictGet_nil (k : List ℕ) : dictGet k [] = none := rfl

theorem dictGet_dictSet_self (d : Dist) (k : List ℕ) (v : ℚ) :
    dictGet k (dictSet d k v) = some v := by
  induction d with
  | nil => simp [dictSet, dictGet]
  | cons p rest ih =>
      by_cases h : p.1 = k
      · simp [dictSet, h, dictGet]
      · simp [dictSet, h, dictGet, ih]

theorem dictGet_dictSet_ne (d : Dist) (k k' : List ℕ) (v : ℚ) (h : k' ≠ k) :
    dictGet k' (dictSet d k v) = dictGet k' d := by
  induction d with
  | nil => simp [dictSet, dictGet, Ne.symm h]
  | cons p rest ih =>
      by_cases hp : p.1 = k
      · simp [dictSet, hp, dictGet, Ne.symm h]
      · simp [dictSet, hp, dictGet, ih]

theorem dictGet_none_iff (k : List ℕ) (d : Dist) :
    dictGet k d = none ↔ ∀ p ∈ d, p.1 ≠ k := by
  induction d with
  | nil => simp [dictGet]
  | cons p rest ih =>
      by_cases hp : p.1 = k <;> simp [dictGet, hp, ih]

theorem dictGet_append_none (k : List ℕ) (d1 d2 : Dist) :
    dictGet k (d1 ++ d2) = none ↔ dictGet k d1 = none ∧ dictGet k d2 = none := by
  induction d1 with
  | nil => simp [dictGet]
  | cons p rest ih =>
      by_cases hp : p.1 = k <;> simp [dictGet, hp, ih]

theorem dictSet_eq_append (d : Dist) (k : List ℕ) (v : ℚ)
    (h : dictGet k d = none) : dictSet d k v = d ++ [(k, v)] := by
  induction d with
  | nil => simp [dictSet]
  | cons p rest ih =>
      rw [dictGet] at h
      by_cases hp : p.1 = k
      · simp [hp] at h
      · rw [if_neg hp] at h
        simp [dictSet, hp, ih h]

theorem foldl_dictSet_eq_map (f : List ℕ → ℚ) :
    ∀ (labels : List (List ℕ)) (acc : Dist), labels.Nodup →
      (∀ l ∈ labels, dictGet l acc = none) →
      labels.foldl (fun pn label => dictSet pn label (f label)) acc
        = acc ++ labels.map (fun l => (l, f l)) := by
  intro labels
  induction labels with
  | nil => simp
  | cons l rest ih =>
      intro acc hnd hfresh
      simp only [List.foldl_cons]
      rw [dictSet_eq_append _ _ _ (hfresh l (by simp))]
      rw [ih (acc ++ [(l, f l)]) hnd.of_cons ?_]
      · simp
      · intro l' hl'
        rw [dictGet_append_none]
        refine ⟨hfresh l' (by simp [hl']), ?_⟩
        have hne : l ≠ l' := fun he => (List.nodup_cons.mp hnd).1 (he ▸ hl')
        simp [dictGet, hne]

/-- The walk-output dictionary, written as an explicit map: the key list is
exactly the enumerated outcome set and the value of each label is the raw
backend probability of the label with a herald `1` prepended. -/
theorem computeWalkOutput_eq_map (backend : List Op → List ℕ → ℚ) (nSteps : ℤ)
    (r alphaSq eta gamma : ℚ) (max_photons : ℤ) (n_noise etaFock : ℚ) :
    computeWalkOutput backend nSteps r alphaSq eta gamma max_photons n_noise etaFock
      = (generate_photon_outcomes (2 * nSteps + 2) max_photons).map
          (fun label =>
            (label,
             backend (buildWalkProgram nSteps r alphaSq gamma eta n_noise etaFock)
               (1 :: label))) := by
  unfold computeWalkOutput
  rw [foldl_dictSet_eq_map _ _ _ (generate_photon_outcomes_nodup _ _)
    (fun l _ => dictGet_nil l)]
  simp


/-! ### Accumulation machinery -/

theorem dictGet_dictSet_none_iff (d : Dist) (k k' : List ℕ) (v : ℚ) :
    dictGet k' (dictSet d k v) = none ↔ dictGet k' d = none ∧ k ≠ k' := by
  by_cases h : k' = k
  · subst h
    simp [dictGet_dictSet_self]
  · rw [dictGet_dictSet_ne d k k' v h]
    simp [Ne.symm h]

theorem mem_keys_dictSet (d : Dist) (k : List ℕ) (v : ℚ) (p : List ℕ × ℚ)
    (hp : p ∈ dictSet d k v) : p.1 = k ∨ ∃ q ∈ d, q.1 = p.1 := by
  induction d with
  | nil =>
      simp [dictSet] at hp
      left
      simp [hp]
  | cons q rest ih =>
      by_cases hq : q.1 = k
      · rw [dictSet, if_pos hq] at hp
        rcases List.mem_cons.mp hp with h | h
        · left; simp [h]
        · right; exact ⟨p, List.mem_cons_of_mem _ h, rfl⟩
      · rw [dictSet, if_neg hq] at hp
        rcases List.mem_cons.mp hp with h | h
        · right; exact ⟨q, List.mem_cons_self _ _, by rw [h]⟩
        · rcases ih h with h' | h'
          · left; exact h'
          · obtain ⟨q', hq', he⟩ := h'
            right; exact ⟨q', List.mem_cons_of_mem _ hq', he⟩

theorem valSum_dictSet_fresh (d : Dist) (k : List ℕ) (v : ℚ)
    (h : dictGet k d = none) :
    ((dictSet d k v).map (fun p => p.2)).sum = (d.map (fun p => p.2)).sum + v := by
  rw [dictSet_eq_append d k v h]
  simp

theorem valSum_dictSet_update (k : List ℕ) (v u : ℚ) :
    ∀ d : Dist, dictGet k d = some u →
      ((dictSet d k v).map (fun p => p.2)).sum + u = (d.map (fun p => p.2)).sum + v := by
  intro d
  induction d with
  | nil => intro h; simp [dictGet] at h
  | cons p rest ih =>
      intro h
      rw [dictGet] at h
      by_cases hp : p.1 = k
      · rw [if_pos hp] at h
        rw [dictSet, if_pos hp]
        simp only [List.map_cons, List.sum_cons, Option.some_inj] at h ⊢
        rw [← h]
        ring
      · rw [if_neg hp] at h
        rw [dictSet, if_neg hp]
        simp only [List.map_cons, List.sum_cons]
        have := ih h
        linarith

theorem valSum_accumStep (d : Dist) (e : List ℕ × ℚ) :
    ((accumStep d e).map (fun p => p.2)).sum = (d.map (fun p => p.2)).sum + e.2 := by
  unfold accumStep dictGetD
  cases h : dictGet e.1 d with
  | none =>
      simp only [Option.getD_none, zero_add]
      exact valSum_dictSet_fresh d e.1 e.2 h
  | some u =>
      simp only [Option.getD_some]
      have := valSum_dictSet_update e.1 (u + e.2) u d h
      linarith

theorem accumStep_foldl_getD (k : List ℕ) :
    ∀ (events : List (List ℕ × ℚ)) (acc : Dist),
      dictGetD (events.foldl accumStep acc) k 0
        = dictGetD acc k 0 + (events.map (fun e => if e.1 = k then e.2 else 0)).sum := by
  intro events
  induction events with
  | nil => simp
  | cons e rest ih =>
      intro acc
      simp only [List.foldl_cons, List.map_cons, List.sum_cons]
      rw [ih]
      by_cases he : e.1 = k
      · rw [if_pos he]
        subst he
        simp only [accumStep, dictGetD, dictGet_dictSet_self, Option.getD_some]
        ring
      · rw [if_neg he]
        have hne : k ≠ e.1 := Ne.symm he
        simp only [accumStep, dictGetD, dictGet_dictSet_ne _ _ _ _ hne]
        ring

theorem accumStep_foldl_get_none (k : List ℕ) :
    ∀ (events : List (List ℕ × ℚ)) (acc : Dist),
      dictGet k (events.foldl accumStep acc) = none
        ↔ dictGet k acc = none ∧ ∀ e ∈ events, e.1 ≠ k := by
  intro events
  induction events with
  | nil => simp
  | cons e rest ih =>
      intro acc
      simp only [List.foldl_cons]
      rw [ih]
      unfold accumStep
      rw [dictGet_dictSet_none_iff]
      constructor
      · rintro ⟨⟨h1, h2⟩, h3⟩
        refine ⟨h1, ?_⟩
        intro e' he'
        rcases List.mem_cons.mp he' with h | h
        · rw [h]; exact h2
        · exact h3 e' h
      · rintro ⟨h1, h2⟩
        exact ⟨⟨h1, h2 e (List.mem_cons_self _ _)⟩,
          fun e' he' => h2 e' (List.mem_cons_of_mem _ he')⟩

theorem accumStep_foldl_valsum :
    ∀ (events : List (List ℕ × ℚ)) (acc : Dist),
      ((events.foldl accumStep acc).map (fun p => p.2)).sum
        = (acc.map (fun p => p.2)).sum + (events.map (fun e => e.2)).sum := by
  intro events
  induction events with
  | nil => simp
  | cons e rest ih =>
      intro acc
      simp only [List.foldl_cons, List.map_cons, List.sum_cons]
      rw [ih, valSum_accumStep]
      ring

theorem accumStep_foldl_keys :
    ∀ (events : List (List ℕ × ℚ)) (acc : Dist) (p : List ℕ × ℚ),
      p ∈ events.foldl accumStep acc →
        (∃ q ∈ acc, q.1 = p.1) ∨ ∃ e ∈ events, e.1 = p.1 := by
  intro events
  induction events with
  | nil => intro acc p hp; left; exact ⟨p, hp, rfl⟩
  | cons e rest ih =>
      intro acc p hp
      simp only [List.foldl_cons] at hp
      rcases ih _ p hp with h | h
      · obtain ⟨q, hq, hq1⟩ := h
        rcases mem_keys_dictSet _ _ _ q hq with h' | h'
        · right; exact ⟨e, List.mem_cons_self _ _, h'.symm.trans hq1⟩
        · obtain ⟨q', hq', he⟩ := h'
          left; exact ⟨q', hq', he.trans hq1⟩
      · obtain ⟨e', he', he1⟩ := h
        right; exact ⟨e', List.mem_cons_of_mem _ he', he1⟩

/-! ### The convolution as a fold over events -/

theorem foldl_foldl_eq_foldl_flatMap {α β γ : Type} (g : γ → α → β → γ) :
    ∀ (d1 : List α) (d2 : List β) (init : γ),
      d1.foldl (fun acc p1 => d2.foldl (fun a p2 => g a p1 p2) acc) init
        = (d1.flatMap (fun p1 => d2.map (fun p2 => (p1, p2)))).foldl
            (fun a pq => g a pq.1 pq.2) init := by
  intro d1
  induction d1 with
  | nil => simp
  | cons p1 rest ih =>
      intro d2 init
      simp only [List.foldl_cons, List.flatMap_cons, List.foldl_append, List.foldl_map]
      exact ih d2 _

theorem convolve_eq_events_foldl (d1 d2 : Dist) (M : ℤ) :
    convolve_probabilities d1 d2 M
      = (convEvents d1 d2).foldl
          (fun acc e => if (e.1.sum : ℤ) ≤ M then accumStep acc e else acc) [] := by
  unfold convolve_probabilities
  rw [foldl_foldl_eq_foldl_flatMap]
  have hev : convEvents d1 d2
      = (d1.flatMap (fun p1 => d2.map (fun p2 => (p1, p2)))).map
          (fun pq => (List.zipWith (· + ·) pq.1.1 pq.2.1, pq.1.2 * pq.2.2)) := by
    unfold convEvents
    rw [List.map_flatMap]
    congr 1
    funext p1
    rw [List.map_map]
    rfl
  rw [hev, List.foldl_map]
  rfl

theorem foldl_guarded_accumStep (M : ℤ) :
    ∀ (events : List (List ℕ × ℚ)) (acc : Dist),
      events.foldl (fun acc e => if (e.1.sum : ℤ) ≤ M then accumStep acc e else acc) acc
        = (events.filter (fun e => decide ((e.1.sum : ℤ) ≤ M))).foldl accumStep acc := by
  intro events
  induction events with
  | nil => intro acc; rfl
  | cons e rest ih =>
      intro acc
      simp only [List.foldl_cons, List.filter_cons]
      by_cases hq : (e.1.sum : ℤ) ≤ M
      · rw [if_pos hq, if_pos (decide_eq_true hq), List.foldl_cons]
        exact ih _
      · rw [if_neg hq, if_neg (by simpa using hq)]
        exact ih _

theorem filter_sum_ite (M : ℤ) (s : List ℕ) :
    ∀ events : List (List ℕ × ℚ),
      (((events.filter (fun e => decide ((e.1.sum : ℤ) ≤ M))).map
          (fun e => if e.1 = s then e.2 else 0)).sum)
        = (events.map (fun e => if e.1 = s ∧ (e.1.sum : ℤ) ≤ M then e.2 else 0)).sum := by
  intro events
  induction events with
  | nil => rfl
  | cons e rest ih =>
      simp only [List.filter_cons, List.map_cons, List.sum_cons]
      by_cases hq : (e.1.sum : ℤ) ≤ M
      · rw [if_pos (decide_eq_true hq), List.map_cons, List.sum_cons, ih]
        by_cases hp : e.1 = s
        · rw [if_pos hp, if_pos ⟨hp, hq⟩]
        · rw [if_neg hp, if_neg (fun hc => hp hc.1)]
      · rw [if_neg (by simpa using hq), if_neg (fun hc => hq hc.2), ih, zero_add]

theorem convolve_getD (d1 d2 : Dist) (M : ℤ) (s : List ℕ) :
    dictGetD (convolve_probabilities d1 d2 M) s 0
      = ((convEvents d1 d2).map
          (fun e => if e.1 = s ∧ (e.1.sum : ℤ) ≤ M then e.2 else 0)).sum := by
  rw [convolve_eq_events_foldl, foldl_guarded_accumStep, accumStep_foldl_getD,
    filter_sum_ite]
  simp [dictGetD, dictGet_nil]

theorem convolve_get_none_iff (d1 d2 : Dist) (M : ℤ) (s : List ℕ) :
    dictGet s (convolve_probabilities d1 d2 M) = none
      ↔ ∀ e ∈ convEvents d1 d2, ¬(e.1 = s ∧ (e.1.sum : ℤ) ≤ M) := by
  rw [convolve_eq_events_foldl, foldl_guarded_accumStep, accumStep_foldl_get_none]
  simp only [dictGet_nil, true_and, List.mem_filter, decide_eq_true_eq]
  constructor
  · rintro h e he ⟨h1, h2⟩
    exact h e ⟨he, h2⟩ h1
  · rintro h e ⟨he, h2⟩ h1
    exact h e he ⟨h1, h2⟩

theorem valSum_convolve (d1 d2 : Dist) (M : ℤ) :
    ((convolve_probabilities d1 d2 M).map (fun p => p.2)).sum
      = ((convEvents d1 d2).map
          (fun e => if (e.1.sum : ℤ) ≤ M then e.2 else 0)).sum := by
  rw [convolve_eq_events_foldl, foldl_guarded_accumStep, accumStep_foldl_valsum]
  simp only [List.map_nil, List.sum_nil, zero_add]
  induction convEvents d1 d2 with
  | nil => rfl
  | cons e rest ih =>
      simp only [List.filter_cons, List.map_cons, List.sum_cons]
      by_cases hq : (e.1.sum : ℤ) ≤ M
      · rw [if_pos (decide_eq_true hq), List.map_cons, List.sum_cons, ih, if_pos hq]
      · rw [if_neg (by simpa using hq), if_neg hq, ih, zero_add]

theorem mem_convolve_sum_le (d1 d2 : Dist) (M : ℤ) :
    ∀ p ∈ convolve_probabilities d1 d2 M, (p.1.sum : ℤ) ≤ M := by
  intro p hp
  rw [convolve_eq_events_foldl, foldl_guarded_accumStep] at hp
  rcases accumStep_foldl_keys _ _ p hp with h | h
  · obtain ⟨q, hq, -⟩ := h
    simp at hq
  · obtain ⟨e, he, he1⟩ := h
    rw [List.mem_filter] at he
    rw [← he1]
    exact of_decide_eq_true he.2

/-! ### Normalization lemmas -/

theorem dictGet_map_value (f : ℚ → ℚ) (k : List ℕ) :
    ∀ d : Dist,
      dictGet k (d.map (fun kv => (kv.1, f kv.2))) = (dictGet k d).map f := by
  intro d
  induction d with
  | nil => rfl
  | cons p rest ih =>
      by_cases hp : p.1 = k <;> simp [dictGet, hp, ih]

theorem dictGet_normalize (d : Dist) (k : List ℕ) :
    dictGet k (normalizeProbDict d)
      = (dictGet k d).map (fun v => v / (d.map (fun p => p.2)).sum) := by
  unfold normalizeProbDict
  exact dictGet_map_value (fun v => v / (d.map (fun p => p.2)).sum) k d

theorem valSum_map_div (d : Dist) (S : ℚ) :
    ((d.map (fun kv => (kv.1, kv.2 / S))).map (fun p => p.2)).sum
      = (d.map (fun p => p.2)).sum / S := by
  simp only [List.map_map, Function.comp, div_eq_mul_inv]
  exact List.sum_map_mul_right d (fun p => p.2) S⁻¹

theorem valSum_normalize (d : Dist) (h : (d.map (fun p => p.2)).sum ≠ 0) :
    ((normalizeProbDict d).map (fun p => p.2)).sum = 1 := by
  unfold normalizeProbDict
  rw [valSum_map_div]
  exact div_self h

theorem mem_normalize (d : Dist) (p : List ℕ × ℚ)
    (hp : p ∈ normalizeProbDict d) : ∃ q ∈ d, q.1 = p.1 := by
  unfold normalizeProbDict at hp
  obtain ⟨q, hq, hq1⟩ := List.mem_map.mp hp
  exact ⟨q, hq, by rw [← hq1]⟩

theorem sum_flatMap_eq {α : Type} (l : List α) (h : α → List ℚ) :
    (l.flatMap h).sum = (l.map (fun a => (h a).sum)).sum := by
  induction l with
  | nil => rfl
  | cons a rest ih => simp [List.flatMap_cons, List.sum_append, ih]

/-! ### Claim theorems: the distribution operations -/

/-- C6: `convolve_probabilities d1 d2 maxPhotons` maps each outcome `s`
with total `≤ maxPhotons` to the sum over all pairs of entries whose
element-wise label sum is `s` of the products of their weights, discarding
pairs whose summed outcome exceeds `maxPhotons`, with no renormalization;
in particular, convolving `{(1,): 1/2, (0,): 1/2}` with itself at
`maxPhotons = 1` yields weight `1/2` on `(1,)` and `1/4` on `(0,)`, with
total mass `3/4`. -/
theorem convolve_probabilities_correct :
    (∀ (prob1 prob2 : Dist) (max_photons : ℤ) (s : List ℕ),
      dictGetD (convolve_probabilities prob1 prob2 max_photons) s 0
        = (prob1.map (fun p1 =>
            (prob2.map (fun p2 =>
              if List.zipWith (· + ·) p1.1 p2.1 = s ∧ (s.sum : ℤ) ≤ max_photons
              then p1.2 * p2.2 else 0)).sum)).sum) ∧
    convolve_probabilities [([1], (1 : ℚ)/2), ([0], 1/2)]
        [([1], (1 : ℚ)/2), ([0], 1/2)] 1 = [([1], 1/2), ([0], 1/4)] ∧
    ((convolve_probabilities [([1], (1 : ℚ)/2), ([0], 1/2)]
        [([1], (1 : ℚ)/2), ([0], 1/2)] 1).map (fun p => p.2)).sum = 3/4 := by
  refine ⟨?_, ?_, ?_⟩
  · intro prob1 prob2 max_photons s
    rw [convolve_getD]
    unfold convEvents
    rw [List.map_flatMap, sum_flatMap_eq]
    apply congrArg List.sum
    apply List.map_congr_left
    intro p1 _
    apply congrArg List.sum
    rw [List.map_map]
    apply List.map_congr_left
    intro p2 _
    simp only [Function.comp]
    by_cases hz : List.zipWith (· + ·) p1.1 p2.1 = s
    · rw [hz]
    · rw [if_neg (fun hc => hz hc.1), if_neg (fun hc => hz hc.1)]
  · norm_num [convolve_probabilities, dictSet, dictGetD, dictGet]
  · norm_num [convolve_probabilities, dictSet, dictGetD, dictGet]

/-- C9: `computeWalkOutput` returns the map keyed by exactly the enumerated
outcome set over `2*nSteps + 2` detection channels; each value is the raw
backend occupation-number probability of the label with a `1` prepended in
the herald mode (conditioning on exactly one herald photon); the map is
returned unnormalized — the raw backend values with the herald-success
probability folded in, not divided out. -/
theorem computeWalkOutput_enumerated_herald_unnormalized
    (backend : List Op → List ℕ → ℚ) (nSteps : ℤ) (r alphaSq eta gamma : ℚ)
    (max_photons : ℤ) (n_noise etaFock : ℚ) :
    computeWalkOutput backend nSteps r alphaSq eta gamma max_photons n_noise etaFock
      = (generate_photon_outcomes (2 * nSteps + 2) max_photons).map
          (fun label =>
            (label,
             backend (buildWalkProgram nSteps r alphaSq gamma eta n_noise etaFock)
               (1 :: label))) ∧
    (computeWalkOutput backend nSteps r alphaSq eta gamma max_photons n_noise
        etaFock).map Prod.fst
      = generate_photon_outcomes (2 * nSteps + 2) max_photons := by
  refine ⟨computeWalkOutput_eq_map _ _ _ _ _ _ _ _ _, ?_⟩
  rw [computeWalkOutput_eq_map, List.map_map]
  have hid : (Prod.fst ∘ fun label : List ℕ =>
      (label,
       backend (buildWalkProgram nSteps r alphaSq gamma eta n_noise etaFock)
         (1 :: label))) = id := rfl
  rw [hid, List.map_id]

/-- C10: whatever `max_photons` the caller passes, `computeWalkOutputWithMM`
combines the two branch distributions with `convolve_probabilities`' default
truncation of 2, so every outcome in the final distribution has total photon
number at most 2; in particular for `max_photons > 2` no outcome with total
in `(2, max_photons]` survives. -/
theorem computeWalkOutputWithMM_truncated_at_two
    (backend : List Op → List ℕ → ℚ) (nSteps : ℤ)
    (r alphaSq eta gamma mm : ℚ) (max_photons : ℤ) (n_noise : ℚ) :
    (computeWalkOutputWithMM backend nSteps r alphaSq eta gamma mm max_photons
        n_noise).all (fun p => decide ((p.1.sum : ℤ) ≤ 2)) = true := by
  rw [List.all_eq_true]
  intro p hp
  unfold computeWalkOutputWithMM at hp
  obtain ⟨q, hq, hq1⟩ := mem_normalize _ _ hp
  rw [decide_eq_true_eq, ← hq1]
  exact mem_convolve_sum_le _ _ 2 q hq

/-! ### Marginalization (traceOverHV) -/

theorem everyOther_length : ∀ t : List ℕ, (everyOther t).length = (t.length + 1) / 2
  | [] => by simp [everyOther]
  | [a] => by simp [everyOther]
  | a :: b :: rest => by
      simp only [everyOther, List.length_cons, everyOther_length rest]
      omega

theorem everyOther_drop_length (t : List ℕ) :
    (everyOther (t.drop 1)).length = t.length / 2 := by
  cases t with
  | nil => rfl
  | cons a rest =>
      simp only [List.drop_one, List.tail_cons, everyOther_length rest, List.length_cons]

theorem pair_foldl_accum (f g : (List ℕ × ℚ) → (List ℕ × ℚ)) :
    ∀ (l : List (List ℕ × ℚ)) (a b : Dist),
      l.foldl (fun (acc : Dist × Dist) kv =>
          (accumStep acc.1 (f kv), accumStep acc.2 (g kv))) (a, b)
        = ((l.map f).foldl accumStep a, (l.map g).foldl accumStep b) := by
  intro l
  induction l with
  | nil => intro a b; rfl
  | cons kv rest ih =>
      intro a b
      simp only [List.foldl_cons, List.map_cons]
      exact ih _ _

theorem traceOverHV_eq (pDict : Dist) :
    traceOverHV pDict
      = (normalizeProbDict
          ((pDict.map (fun kv => (everyOther kv.1, kv.2))).foldl accumStep []),
         normalizeProbDict
          ((pDict.map (fun kv => (everyOther (kv.1.drop 1), kv.2))).foldl accumStep [])) := by
  show (normalizeProbDict
      (pDict.foldl (fun (acc : Dist × Dist) (kv : List ℕ × ℚ) =>
        (accumStep acc.1 (everyOther kv.1, kv.2),
         accumStep acc.2 (everyOther (kv.1.drop 1), kv.2))) ([], [])).1,
    normalizeProbDict
      (pDict.foldl (fun (acc : Dist × Dist) (kv : List ℕ × ℚ) =>
        (accumStep acc.1 (everyOther kv.1, kv.2),
         accumStep acc.2 (everyOther (kv.1.drop 1), kv.2))) ([], [])).2) = _
  rw [pair_foldl_accum]

theorem dictGetD_normalize (d : Dist) (k : List ℕ) :
    dictGetD (normalizeProbDict d) k 0
      = dictGetD d k 0 / (d.map (fun p => p.2)).sum := by
  unfold dictGetD
  rw [dictGet_normalize]
  cases dictGet k d <;> simp [zero_div]

theorem valSum_trace_half (f : (List ℕ × ℚ) → List ℕ) (pDict : Dist) :
    (((pDict.map (fun kv => (f kv, kv.2))).foldl accumStep []).map
        (fun p => p.2)).sum = (pDict.map (fun p => p.2)).sum := by
  rw [accumStep_foldl_valsum]
  simp only [List.map_nil, List.sum_nil, zero_add, List.map_map]
  apply congrArg List.sum
  apply List.map_congr_left
  intro kv _
  rfl

theorem getD_trace_half (f : (List ℕ × ℚ) → List ℕ) (pDict : Dist) (k : List ℕ) :
    dictGetD ((pDict.map (fun kv => (f kv, kv.2))).foldl accumStep []) k 0
      = (pDict.map (fun p => if f p = k then p.2 else 0)).sum := by
  rw [accumStep_foldl_getD]
  simp only [dictGetD, dictGet_nil, Option.getD_none, zero_add, List.map_map]
  apply congrArg List.sum
  apply List.map_congr_left
  intro kv _
  rfl

/-- C8: for a distribution over fixed-length outcome tuples with positive
total weight, `traceOverHV` returns two distributions keyed by the
even-position and odd-position sub-tuples, each weight being the sum of
the original weights over all outcomes sharing that projection divided by
the total (i.e. the two marginals are normalized, their weights summing to
exactly 1); the sub-outcome lengths are `⌈L/2⌉` for the even-position half
and `⌊L/2⌋` for the odd-position half. -/
theorem traceOverHV_correct (pDict : Dist) (L : ℕ)
    (hlen : pDict.all (fun p => decide (p.1.length = L)) = true)
    (hpos : 0 < (pDict.map (fun p => p.2)).sum) :
    (∀ h : List ℕ,
        dictGetD (traceOverHV pDict).1 h 0
          = (pDict.map (fun p => if everyOther p.1 = h then p.2 else 0)).sum
              / (pDict.map (fun p => p.2)).sum) ∧
    (∀ v : List ℕ,
        dictGetD (traceOverHV pDict).2 v 0
          = (pDict.map (fun p => if everyOther (p.1.drop 1) = v then p.2 else 0)).sum
              / (pDict.map (fun p => p.2)).sum) ∧
    ((traceOverHV pDict).1.map (fun p => p.2)).sum = 1 ∧
    ((traceOverHV pDict).2.map (fun p => p.2)).sum = 1 ∧
    (∀ p ∈ (traceOverHV pDict).1, p.1.length = (L + 1) / 2) ∧
    (∀ p ∈ (traceOverHV pDict).2, p.1.length = L / 2) := by
  rw [List.all_eq_true] at hlen
  rw [traceOverHV_eq]
  have hkeys1 : ∀ p ∈ normalizeProbDict
      ((pDict.map (fun kv => (everyOther kv.1, kv.2))).foldl accumStep []),
      p.1.length = (L + 1) / 2 := by
    intro p hp
    obtain ⟨q, hq, hq1⟩ := mem_normalize _ _ hp
    rcases accumStep_foldl_keys _ _ _ hq with h | h
    · obtain ⟨q', hq', -⟩ := h
      simp at hq'
    · obtain ⟨e, he, he1⟩ := h
      obtain ⟨kv, hkv, hkv1⟩ := List.mem_map.mp he
      rw [← hq1, ← he1, ← hkv1]
      have hL := of_decide_eq_true (hlen kv hkv)
      show (everyOther kv.1).length = (L + 1) / 2
      rw [everyOther_length, hL]
  have hkeys2 : ∀ p ∈ normalizeProbDict
      ((pDict.map (fun kv => (everyOther (kv.1.drop 1), kv.2))).foldl accumStep []),
      p.1.length = L / 2 := by
    intro p hp
    obtain ⟨q, hq, hq1⟩ := mem_normalize _ _ hp
    rcases accumStep_foldl_keys _ _ _ hq with h | h
    · obtain ⟨q', hq', -⟩ := h
      simp at hq'
    · obtain ⟨e, he, he1⟩ := h
      obtain ⟨kv, hkv, hkv1⟩ := List.mem_map.mp he
      rw [← hq1, ← he1, ← hkv1]
      have hL := of_decide_eq_true (hlen kv hkv)
      show (everyOther (kv.1.drop 1)).length = L / 2
      rw [everyOther_drop_length, hL]
  refine ⟨?_, ?_, ?_, ?_, hkeys1, hkeys2⟩
  · intro h
    rw [dictGetD_normalize, valSum_trace_half (fun kv => everyOther kv.1),
      getD_trace_half (fun kv => everyOther kv.1)]
  · intro v
    rw [dictGetD_normalize, valSum_trace_half (fun kv => everyOther (kv.1.drop 1)),
      getD_trace_half (fun kv => everyOther (kv.1.drop 1))]
  · rw [valSum_normalize _ (by rw [valSum_trace_half (fun kv => everyOther kv.1)]; exact hpos.ne')]
  · rw [valSum_normalize _
      (by rw [valSum_trace_half (fun kv => everyOther (kv.1.drop 1))]; exact hpos.ne')]

/-- Witness for C8 at the concrete distribution
`{(0,1) ↦ 1/2, (1,0) ↦ 1/2}` with `L = 2`. -/
theorem traceOverHV_correct_witness :
    (([([0, 1], (1 : ℚ)/2), ([1, 0], (1 : ℚ)/2)] : Dist).all
        (fun p => decide (p.1.length = 2)) = true) ∧
    (0 < (([([0, 1], (1 : ℚ)/2), ([1, 0], (1 : ℚ)/2)] : Dist).map
        (fun p => p.2)).sum) ∧
    ((traceOverHV [([0, 1], (1 : ℚ)/2), ([1, 0], (1 : ℚ)/2)]).1.map
        (fun p => p.2)).sum = 1 ∧
    ((traceOverHV [([0, 1], (1 : ℚ)/2), ([1, 0], (1 : ℚ)/2)]).2.map
        (fun p => p.2)).sum = 1 :=
  ⟨by decide, by norm_num,
   (traceOverHV_correct [([0, 1], (1 : ℚ)/2), ([1, 0], (1 : ℚ)/2)] 2
      (by decide) (by norm_num)).2.2.1,
   (traceOverHV_correct [([0, 1], (1 : ℚ)/2), ([1, 0], (1 : ℚ)/2)] 2
      (by decide) (by norm_num)).2.2.2.1⟩

/-! ### The walk topology -/

theorem buildWalkProgram_zero (r alphaSq gamma eta n_noise etaFock : ℚ) :
    buildWalkProgram 0 r alphaSq gamma eta n_noise etaFock
      = [Op.S2gate r 0 0 1, Op.LossChannel etaFock 1, Op.Coherent alphaSq 2,
         Op.ThermalLossChannel eta n_noise 0, Op.ThermalLossChannel eta n_noise 1,
         Op.ThermalLossChannel eta n_noise 2] := rfl

theorem specOddStepBlock_eq (gamma : ℚ) (k : ℕ) :
    specOddStepBlock gamma k
      = [Op.BSgate (-(1 : ℚ)/4) 0 (2*k+1) (2*k+2),
         Op.BSgate (-(1 : ℚ)/4) 0 (2*k+3) (2*k+4),
         Op.BSgate ((1 : ℚ)/2) gamma (2*k+2) (2*k+4),
         Op.BSgate ((1 : ℚ)/4) 0 (2*k+1) (2*k+2),
         Op.BSgate ((1 : ℚ)/4) 0 (2*k+3) (2*k+4)] := by
  unfold specOddStepBlock specBasisChange specInvBasisChange specTimeShift
  have e1 : 2*(k+1)+1 = 2*k+3 := by ring
  have e2 : 2*(k+1)+2 = 2*k+4 := by ring
  rw [e1, e2]

theorem code_step_eq_specStep (gamma : ℚ) (s : ℕ) :
    ((if s % 2 = 1 then
        (pyRangeDown s).flatMap (fun k =>
          [Op.BSgate (-(1 : ℚ)/4) 0 (2*k+1) (2*k+2),
           Op.BSgate (-(1 : ℚ)/4) 0 (2*k+3) (2*k+4),
           Op.BSgate ((1 : ℚ)/2) gamma (2*k+2) (2*k+4),
           Op.BSgate ((1 : ℚ)/4) 0 (2*k+1) (2*k+2),
           Op.BSgate ((1 : ℚ)/4) 0 (2*k+3) (2*k+4)])
      else [])
     ++ (if s % 2 = 0 then
        (pyRangeDown s).flatMap (fun k =>
          [Op.BSgate ((1 : ℚ)/2) gamma (2*k+2) (2*k+4)])
      else []))
    = specStep gamma s := by
  rcases Nat.mod_two_eq_zero_or_one s with h | h
  · rw [if_neg (by omega), if_pos h, List.nil_append, specStep, if_neg (by omega)]
    by_cases h0 : s = 0
    · subst h0
      rfl
    · rw [if_neg h0]
      exact congrArg (List.flatMap (pyRangeDown s)) (funext fun k => rfl)
  · rw [if_pos h, if_neg (by omega), List.append_nil, specStep, if_pos h]
    exact congrArg (List.flatMap (pyRangeDown s))
      (funext fun k => (specOddStepBlock_eq gamma k).symm)

theorem buildWalkProgram_eq_spec (nSteps : ℤ) (r alphaSq gamma eta n_noise etaFock : ℚ) :
    buildWalkProgram nSteps r alphaSq gamma eta n_noise etaFock
      = specWalkTopology nSteps r alphaSq gamma eta n_noise etaFock := by
  simp only [buildWalkProgram, specWalkTopology, specInit, specTerminal, specClosing]
  have hf : (fun (stepNumber : ℕ) =>
      (if stepNumber % 2 = 1 then
        (pyRangeDown stepNumber).flatMap (fun k =>
          [Op.BSgate (-(1 : ℚ)/4) 0 (2*k+1) (2*k+2),
           Op.BSgate (-(1 : ℚ)/4) 0 (2*k+3) (2*k+4),
           Op.BSgate ((1 : ℚ)/2) gamma (2*k+2) (2*k+4),
           Op.BSgate ((1 : ℚ)/4) 0 (2*k+1) (2*k+2),
           Op.BSgate ((1 : ℚ)/4) 0 (2*k+3) (2*k+4)])
       else [])
      ++ (if stepNumber % 2 = 0 then
        (pyRangeDown stepNumber).flatMap (fun k =>
          [Op.BSgate ((1 : ℚ)/2) gamma (2*k+2) (2*k+4)])
       else []))
      = specStep gamma :=
    funext fun s => code_step_eq_specStep gamma s
  rw [hf]
  rfl

/-- C7: for every `nSteps` and `gamma`, the operation sequence built by
`computeWalkOutput` follows the parity state machine of the spec: odd steps
apply, for `k = s-1` down to `0`, the two −45° basis changes, the 90°
time-shift coupling with phase `gamma`, and the two +45° inverse basis
changes; even steps `s > 0` apply only the time-shift couplings; when
`nSteps` is odd one extra −45° basis change is appended per time-bin pair;
a closing loss+noise operation is applied to every channel including the
herald; and `nSteps = 0` emits only the initialization and closing-loss
stages with no walk-step couplings. -/
theorem walk_topology_parity_machine (nSteps : ℤ)
    (r alphaSq gamma eta n_noise etaFock : ℚ) :
    buildWalkProgram nSteps r alphaSq gamma eta n_noise etaFock
      = specWalkTopology nSteps r alphaSq gamma eta n_noise etaFock ∧
    buildWalkProgram 0 r alphaSq gamma eta n_noise etaFock
      = [Op.S2gate r 0 0 1, Op.LossChannel etaFock 1, Op.Coherent alphaSq 2,
         Op.ThermalLossChannel eta n_noise 0, Op.ThermalLossChannel eta n_noise 1,
         Op.ThermalLossChannel eta n_noise 2] :=
  ⟨buildWalkProgram_eq_spec nSteps r alphaSq gamma eta n_noise etaFock,
   buildWalkProgram_zero r alphaSq gamma eta n_noise etaFock⟩

/-! ### Error handling: what the code actually does -/

/-- Counterexample to C4: `normalizeProbDict` and `filterProbDict` never
surface an error.  The empty distribution is returned unchanged (the
normalizing comprehension never runs), and filtering to a photon-count
subspace with zero probability mass silently yields the empty
distribution. -/
theorem normalize_empty_silently_returns_empty :
    normalizeProbDict ([] : Dist) = [] ∧
    filterProbDict [([0, 1], (1 : ℚ)/2), ([1, 0], (1 : ℚ)/2)] 3 = [] :=
  ⟨rfl, rfl⟩

/-- C4 (amended): on an input with no weight in the requested subspace —
in particular on an all-zero-mass filter result — `filterProbDict`
silently returns the empty distribution, and `normalizeProbDict` maps the
empty distribution to itself; no error is signalled. -/
theorem filter_zero_mass_silently_empty (d : Dist) (n : ℤ)
    (h : d.all (fun p => decide ((p.1.sum : ℤ) ≠ n)) = true) :
    filterProbDict d n = [] ∧ normalizeProbDict ([] : Dist) = [] := by
  refine ⟨?_, rfl⟩
  unfold filterProbDict
  have hfil : d.filter (fun kv => decide ((kv.1.sum : ℤ) = n)) = [] := by
    rw [List.filter_eq_nil_iff]
    intro a ha
    have := of_decide_eq_true (List.all_eq_true.mp h a ha)
    simpa using this
  rw [hfil]
  rfl

/-- Witness for the amended C4 at a concrete two-entry distribution and
`num_photons = 3`. -/
theorem filter_zero_mass_silently_empty_witness :
    (([([0, 1], (1 : ℚ)/2), ([1, 0], (1 : ℚ)/2)] : Dist).all
        (fun p => decide ((p.1.sum : ℤ) ≠ 3)) = true) ∧
    filterProbDict [([0, 1], (1 : ℚ)/2), ([1, 0], (1 : ℚ)/2)] 3 = [] :=
  ⟨by decide,
   (filter_zero_mass_silently_empty [([0, 1], (1 : ℚ)/2), ([1, 0], (1 : ℚ)/2)] 3
      (by decide)).1⟩

theorem generate_neg_max (N : ℤ) (max_photons : ℤ) (hN : 1 ≤ N)
    (hm : max_photons < 0) : generate_photon_outcomes N max_photons = [] := by
  unfold generate_photon_outcomes
  obtain ⟨m, hmm⟩ : ∃ m, N.toNat = m + 1 := ⟨N.toNat - 1, by omega⟩
  rw [hmm, generate_outcomes_helper]
  rw [min_self]
  have hr : pyRange (max_photons + 1) = [] := by
    unfold pyRange
    have h0 : (max_photons + 1).toNat = 0 := by omega
    rw [h0]
    rfl
  rw [hr]
  rfl

/-- C3 (amended): no parameter validation exists and no configuration
error is ever reported.  With an invalid negative photon cutoff both entry
points run to completion and silently return the empty distribution. -/
theorem no_validation_returns_normally (backend : List Op → List ℕ → ℚ)
    (nSteps : ℤ) (r alphaSq eta gamma mm n_noise etaFock : ℚ) (max_photons : ℤ)
    (h1 : 0 ≤ nSteps) (h2 : max_photons < 0) :
    computeWalkOutput backend nSteps r alphaSq eta gamma max_photons n_noise etaFock
      = [] ∧
    computeWalkOutputWithMM backend nSteps r alphaSq eta gamma mm max_photons n_noise
      = [] := by
  have hgen : generate_photon_outcomes (2 * nSteps + 2) max_photons = [] :=
    generate_neg_max _ _ (by omega) h2
  constructor
  · rw [computeWalkOutput_eq_map, hgen]
    rfl
  · unfold computeWalkOutputWithMM
    rw [computeWalkOutput_eq_map, computeWalkOutput_eq_map, hgen]
    rfl

/-- Witness for the amended C3 at `nSteps = 0`, `max_photons = -1`. -/
theorem no_validation_returns_normally_witness :
    (0 : ℤ) ≤ 0 ∧ (-1 : ℤ) < 0 ∧
    computeWalkOutput mmTestBackend 0 (7/100) (2/25) (7/100) 0 (-1) (1/200000) 1
      = [] ∧
    computeWalkOutputWithMM mmTestBackend 0 (7/100) (2/25) (7/100) 0 (1/2) (-1)
        (1/200000) = [] :=
  ⟨le_refl 0, by decide,
   (no_validation_returns_normally mmTestBackend 0 (7/100) (2/25) (7/100) 0 (1/2)
      (1/200000) 1 (-1) (by decide) (by decide)).1,
   (no_validation_returns_normally mmTestBackend 0 (7/100) (2/25) (7/100) 0 (1/2)
      (1/200000) 1 (-1) (by decide) (by decide)).2⟩

/-! ### Mode-mismatch analysis: convolution with a point-mass branch -/

theorem zipWith_add_replicate_zero_right :
    ∀ (t : List ℕ) (n : ℕ), t.length = n →
      List.zipWith (· + ·) t (List.replicate n 0) = t := by
  intro t
  induction t with
  | nil => intro n h; simp
  | cons x rest ih =>
      intro n h
      cases n with
      | zero => simp at h
      | succ m =>
          simp only [List.replicate_succ, List.zipWith_cons_cons, Nat.add_zero]
          rw [ih m (by simpa using h)]

theorem zipWith_add_replicate_zero_left :
    ∀ (t : List ℕ) (n : ℕ), t.length = n →
      List.zipWith (· + ·) (List.replicate n 0) t = t := by
  intro t
  induction t with
  | nil => intro n h; simp
  | cons x rest ih =>
      intro n h
      cases n with
      | zero => simp at h
      | succ m =>
          simp only [List.replicate_succ, List.zipWith_cons_cons, Nat.zero_add]
          rw [ih m (by simpa using h)]

theorem zipWith_add_length : ∀ (t u : List ℕ),
    (List.zipWith (· + ·) t u).length = min t.length u.length :=
  fun t u => List.length_zipWith _ t u

theorem zipWith_add_sum : ∀ (t u : List ℕ), t.length = u.length →
    (List.zipWith (· + ·) t u).sum = t.sum + u.sum := by
  intro t
  induction t with
  | nil =>
      intro u h
      cases u with
      | nil => rfl
      | cons y v => simp at h
  | cons x rest ih =>
      intro u h
      cases u with
      | nil => simp at h
      | cons y v =>
          simp only [List.zipWith_cons_cons, List.sum_cons]
          rw [ih v (by simpa using h)]
          ring

theorem sum_ite_eq_of_nodup (x : List ℕ) (f : List ℕ → ℚ) :
    ∀ l : List (List ℕ), l.Nodup → x ∈ l →
      (l.map (fun y => if y = x then f y else 0)).sum = f x := by
  intro l
  induction l with
  | nil => intro _ h; simp at h
  | cons y rest ih =>
      intro hnd hx
      simp only [List.map_cons, List.sum_cons]
      by_cases hy : y = x
      · subst hy
        rw [if_pos rfl]
        have hnot : y ∉ rest := (List.nodup_cons.mp hnd).1
        have hz : (rest.map (fun y' => if y' = y then f y' else 0)).sum = 0 := by
          apply List.sum_eq_zero
          intro q hq
          obtain ⟨y', hy', hy'e⟩ := List.mem_map.mp hq
          have hne : y' ≠ y := by
            intro he
            subst he
            exact hnot hy'
          rw [← hy'e, if_neg hne]
        rw [hz, add_zero]
      · rw [if_neg hy]
        rcases List.mem_cons.mp hx with h | h
        · exact absurd h.symm hy
        · rw [ih (List.nodup_cons.mp hnd).2 h, zero_add]

theorem mem_generate_two (N : ℤ) (t : List ℕ) :
    t ∈ generate_photon_outcomes N 2 ↔ t.length = N.toNat ∧ (t.sum : ℤ) ≤ 2 :=
  mem_generate_helper 2 N.toNat 2 (by norm_num) (le_refl 2) t

theorem replicate_mem_generate_two (N : ℤ) :
    List.replicate N.toNat 0 ∈ generate_photon_outcomes N 2 :=
  (mem_generate_two N _).mpr ⟨by simp, by simp⟩

theorem dictGet_pair_map (f : List ℕ → ℚ) (s : List ℕ) :
    ∀ labels : List (List ℕ),
      dictGet s (labels.map (fun l => (l, f l)))
        = if s ∈ labels then some (f s) else none := by
  intro labels
  induction labels with
  | nil => simp [dictGet]
  | cons l rest ih =>
      simp only [List.map_cons]
      rw [dictGet]
      by_cases hl : l = s
      · subst hl
        rw [if_pos rfl, if_pos (List.mem_cons_self _ _)]
      · rw [if_neg hl, ih]
        by_cases hs : s ∈ rest
        · rw [if_pos hs, if_pos (List.mem_cons_of_mem _ hs)]
        · rw [if_neg hs, if_neg (by simp [hs, Ne.symm hl])]

theorem convEvents_map_map (a b : List ℕ → ℚ) (L1 L2 : List (List ℕ)) :
    convEvents (L1.map (fun l => (l, a l))) (L2.map (fun l => (l, b l)))
      = L1.flatMap (fun l1 =>
          L2.map (fun l2 => (List.zipWith (· + ·) l1 l2, a l1 * b l2))) := by
  unfold convEvents
  rw [List.flatMap_map]
  apply congrArg (List.flatMap L1)
  funext l1
  simp only [Function.comp_apply]
  rw [List.map_map]
  rfl

theorem getD_conv_maps (a b : List ℕ → ℚ) (L : List (List ℕ)) (M : ℤ) (s : List ℕ) :
    dictGetD (convolve_probabilities (L.map (fun l => (l, a l)))
        (L.map (fun l => (l, b l))) M) s 0
      = (L.map (fun l1 =>
          (L.map (fun l2 =>
            if List.zipWith (· + ·) l1 l2 = s
                ∧ (((List.zipWith (· + ·) l1 l2 : List ℕ)).sum : ℤ) ≤ M
            then a l1 * b l2 else 0)).sum)).sum := by
  rw [convolve_getD, convEvents_map_map, List.map_flatMap, sum_flatMap_eq]
  apply congrArg List.sum
  apply List.map_congr_left
  intro l1 _
  rw [List.map_map]
  apply congrArg List.sum
  apply List.map_congr_left
  intro l2 _
  rfl

theorem valSum_conv_maps (a b : List ℕ → ℚ) (L : List (List ℕ)) (M : ℤ) :
    ((convolve_probabilities (L.map (fun l => (l, a l)))
        (L.map (fun l => (l, b l))) M).map (fun p => p.2)).sum
      = (L.map (fun l1 =>
          (L.map (fun l2 =>
            if (((List.zipWith (· + ·) l1 l2 : List ℕ)).sum : ℤ) ≤ M
            then a l1 * b l2 else 0)).sum)).sum := by
  rw [valSum_convolve, convEvents_map_map, List.map_flatMap, sum_flatMap_eq]
  apply congrArg List.sum
  apply List.map_congr_left
  intro l1 _
  rw [List.map_map]
  apply congrArg List.sum
  apply List.map_congr_left
  intro l2 _
  rfl

theorem get_none_conv_maps (a b : List ℕ → ℚ) (L : List (List ℕ)) (M : ℤ) (s : List ℕ) :
    dictGet s (convolve_probabilities (L.map (fun l => (l, a l)))
        (L.map (fun l => (l, b l))) M) = none
      ↔ ∀ l1 ∈ L, ∀ l2 ∈ L,
          ¬(List.zipWith (· + ·) l1 l2 = s
            ∧ (((List.zipWith (· + ·) l1 l2 : List ℕ)).sum : ℤ) ≤ M) := by
  rw [convolve_get_none_iff, convEvents_map_map]
  constructor
  · intro h l1 h1 l2 h2
    exact h _ (List.mem_flatMap.mpr ⟨l1, h1, List.mem_map_of_mem _ h2⟩)
  · rintro h e he
    obtain ⟨l1, h1, he2⟩ := List.mem_flatMap.mp he
    obtain ⟨l2, h2, rfl⟩ := List.mem_map.mp he2
    exact h l1 h1 l2 h2

section PointMass

variable {L : List (List ℕ)} {n : ℕ} {a b : List ℕ → ℚ} {c : ℚ}

theorem inner_sum_pointmass_right (hnd : L.Nodup)
    (hlen : ∀ l ∈ L, l.length = n) (hsum : ∀ l ∈ L, (l.sum : ℤ) ≤ 2)
    (hzm : List.replicate n 0 ∈ L) (hbz : b (List.replicate n 0) = c)
    (hb : ∀ l ∈ L, l ≠ List.replicate n 0 → b l = 0)
    (l1 : List ℕ) (hl1 : l1 ∈ L) (s : List ℕ) :
    (L.map (fun l2 =>
        if List.zipWith (· + ·) l1 l2 = s
            ∧ (((List.zipWith (· + ·) l1 l2 : List ℕ)).sum : ℤ) ≤ 2
        then a l1 * b l2 else 0)).sum
      = if l1 = s then a l1 * c else 0 := by
  have step : ∀ l2 ∈ L,
      (if List.zipWith (· + ·) l1 l2 = s
          ∧ (((List.zipWith (· + ·) l1 l2 : List ℕ)).sum : ℤ) ≤ 2
       then a l1 * b l2 else 0)
        = if l2 = List.replicate n 0 then (if l1 = s then a l1 * c else 0) else 0 := by
    intro l2 hl2
    by_cases hz : l2 = List.replicate n 0
    · subst hz
      rw [if_pos rfl, zipWith_add_replicate_zero_right l1 n (hlen l1 hl1), hbz]
      by_cases hls : l1 = s
      · rw [if_pos ⟨hls, hsum l1 hl1⟩, if_pos hls]
      · rw [if_neg (fun hcnd => hls hcnd.1), if_neg hls]
    · rw [if_neg hz, hb l2 hl2 hz, mul_zero, ite_self]
  rw [List.map_congr_left step]
  exact sum_ite_eq_of_nodup (List.replicate n 0) _ L hnd hzm

theorem conv_pointmass_right_getD (hnd : L.Nodup)
    (hlen : ∀ l ∈ L, l.length = n) (hsum : ∀ l ∈ L, (l.sum : ℤ) ≤ 2)
    (hzm : List.replicate n 0 ∈ L) (hbz : b (List.replicate n 0) = c)
    (hb : ∀ l ∈ L, l ≠ List.replicate n 0 → b l = 0)
    (s : List ℕ) (hs : s ∈ L) :
    dictGetD (convolve_probabilities (L.map (fun l => (l, a l)))
        (L.map (fun l => (l, b l))) 2) s 0 = a s * c := by
  rw [getD_conv_maps]
  rw [List.map_congr_left
    (fun l1 hl1 => inner_sum_pointmass_right hnd hlen hsum hzm hbz hb l1 hl1 s)]
  exact sum_ite_eq_of_nodup s (fun l => a l * c) L hnd hs

theorem conv_pointmass_right_valSum (hnd : L.Nodup)
    (hlen : ∀ l ∈ L, l.length = n) (hsum : ∀ l ∈ L, (l.sum : ℤ) ≤ 2)
    (hzm : List.replicate n 0 ∈ L) (hbz : b (List.replicate n 0) = c)
    (hb : ∀ l ∈ L, l ≠ List.replicate n 0 → b l = 0) :
    ((convolve_probabilities (L.map (fun l => (l, a l)))
        (L.map (fun l => (l, b l))) 2).map (fun p => p.2)).sum
      = (L.map a).sum * c := by
  rw [valSum_conv_maps]
  have step : ∀ l1 ∈ L,
      (L.map (fun l2 =>
          if (((List.zipWith (· + ·) l1 l2 : List ℕ)).sum : ℤ) ≤ 2
          then a l1 * b l2 else 0)).sum
        = a l1 * c := by
    intro l1 hl1
    have inner : ∀ l2 ∈ L,
        (if (((List.zipWith (· + ·) l1 l2 : List ℕ)).sum : ℤ) ≤ 2
         then a l1 * b l2 else 0)
          = if l2 = List.replicate n 0 then a l1 * c else 0 := by
      intro l2 hl2
      by_cases hz : l2 = List.replicate n 0
      · subst hz
        rw [if_pos rfl, zipWith_add_replicate_zero_right l1 n (hlen l1 hl1), hbz,
          if_pos (hsum l1 hl1)]
      · rw [if_neg hz, hb l2 hl2 hz, mul_zero, ite_self]
    rw [List.map_congr_left inner]
    exact sum_ite_eq_of_nodup (List.replicate n 0) (fun _ => a l1 * c) L hnd hzm
  rw [List.map_congr_left step]
  exact List.sum_map_mul_right L a c

theorem conv_pointmass_none_iff (hnd : L.Nodup)
    (hlen : ∀ l ∈ L, l.length = n) (hsum : ∀ l ∈ L, (l.sum : ℤ) ≤ 2)
    (hcomp : ∀ t : List ℕ, t.length = n → (t.sum : ℤ) ≤ 2 → t ∈ L)
    (hzm : List.replicate n 0 ∈ L) (a' b' : List ℕ → ℚ) (s : List ℕ) :
    (dictGet s (convolve_probabilities (L.map (fun l => (l, a' l)))
        (L.map (fun l => (l, b' l))) 2) = none ↔ s ∉ L) := by
  rw [get_none_conv_maps]
  constructor
  · intro h hs
    refine h s hs (List.replicate n 0) hzm ⟨?_, ?_⟩
    · exact zipWith_add_replicate_zero_right s n (hlen s hs)
    · rw [zipWith_add_replicate_zero_right s n (hlen s hs)]
      exact hsum s hs
  · rintro hs l1 h1 l2 h2 ⟨hz, hs2⟩
    apply hs
    apply hcomp
    · rw [← hz, zipWith_add_length, hlen l1 h1, hlen l2 h2, min_self]
    · rw [← hz]
      exact hs2

theorem inner_sum_pointmass_left (hnd : L.Nodup)
    (hlen : ∀ l ∈ L, l.length = n) (hsum : ∀ l ∈ L, (l.sum : ℤ) ≤ 2)
    (hzm : List.replicate n 0 ∈ L) (hbz : b (List.replicate n 0) = c)
    (hb : ∀ l ∈ L, l ≠ List.replicate n 0 → b l = 0)
    (s : List ℕ) (hs : s ∈ L) (l1 : List ℕ) (hl1 : l1 ∈ L) :
    (L.map (fun l2 =>
        if List.zipWith (· + ·) l1 l2 = s
            ∧ (((List.zipWith (· + ·) l1 l2 : List ℕ)).sum : ℤ) ≤ 2
        then b l1 * a l2 else 0)).sum
      = if l1 = List.replicate n 0 then c * a s else 0 := by
  by_cases hz : l1 = List.replicate n 0
  · subst hz
    rw [if_pos rfl]
    have inner : ∀ l2 ∈ L,
        (if List.zipWith (· + ·) (List.replicate n 0) l2 = s
            ∧ (((List.zipWith (· + ·) (List.replicate n 0) l2 : List ℕ)).sum : ℤ) ≤ 2
         then b (List.replicate n 0) * a l2 else 0)
          = if l2 = s then c * a l2 else 0 := by
      intro l2 hl2
      rw [zipWith_add_replicate_zero_left l2 n (hlen l2 hl2), hbz]
      by_cases hls : l2 = s
      · rw [if_pos ⟨hls, hsum l2 hl2⟩, if_pos hls]
      · rw [if_neg (fun hcnd => hls hcnd.1), if_neg hls]
    rw [List.map_congr_left inner]
    exact sum_ite_eq_of_nodup s (fun l => c * a l) L hnd hs
  · rw [if_neg hz]
    apply List.sum_eq_zero
    intro q hq
    obtain ⟨l2, hl2, hq1⟩ := List.mem_map.mp hq
    rw [← hq1, hb l1 hl1 hz, zero_mul, ite_self]

theorem conv_pointmass_left_getD (hnd : L.Nodup)
    (hlen : ∀ l ∈ L, l.length = n) (hsum : ∀ l ∈ L, (l.sum : ℤ) ≤ 2)
    (hzm : List.replicate n 0 ∈ L) (hbz : b (List.replicate n 0) = c)
    (hb : ∀ l ∈ L, l ≠ List.replicate n 0 → b l = 0)
    (s : List ℕ) (hs : s ∈ L) :
    dictGetD (convolve_probabilities (L.map (fun l => (l, b l)))
        (L.map (fun l => (l, a l))) 2) s 0 = c * a s := by
  rw [getD_conv_maps]
  rw [List.map_congr_left
    (fun l1 hl1 => inner_sum_pointmass_left hnd hlen hsum hzm hbz hb s hs l1 hl1)]
  exact sum_ite_eq_of_nodup (List.replicate n 0) (fun _ => c * a s) L hnd hzm

theorem conv_pointmass_left_valSum (hnd : L.Nodup)
    (hlen : ∀ l ∈ L, l.length = n) (hsum : ∀ l ∈ L, (l.sum : ℤ) ≤ 2)
    (hzm : List.replicate n 0 ∈ L) (hbz : b (List.replicate n 0) = c)
    (hb : ∀ l ∈ L, l ≠ List.replicate n 0 → b l = 0) :
    ((convolve_probabilities (L.map (fun l => (l, b l)))
        (L.map (fun l => (l, a l))) 2).map (fun p => p.2)).sum
      = c * (L.map a).sum := by
  rw [valSum_conv_maps]
  have step : ∀ l1 ∈ L,
      (L.map (fun l2 =>
          if (((List.zipWith (· + ·) l1 l2 : List ℕ)).sum : ℤ) ≤ 2
          then b l1 * a l2 else 0)).sum
        = if l1 = List.replicate n 0 then c * (L.map a).sum else 0 := by
    intro l1 hl1
    by_cases hz : l1 = List.replicate n 0
    · subst hz
      rw [if_pos rfl]
      have inner : ∀ l2 ∈ L,
          (if (((List.zipWith (· + ·) (List.replicate n 0) l2 : List ℕ)).sum : ℤ) ≤ 2
           then b (List.replicate n 0) * a l2 else 0)
            = c * a l2 := by
        intro l2 hl2
        rw [zipWith_add_replicate_zero_left l2 n (hlen l2 hl2), hbz,
          if_pos (hsum l2 hl2)]
      rw [List.map_congr_left inner]
      rw [show (fun l2 => c * a l2) = (fun l2 => a l2 * c) from funext fun l2 => mul_comm c (a l2)]
      rw [List.sum_map_mul_right L a c, mul_comm]
    · rw [if_neg hz]
      apply List.sum_eq_zero
      intro q hq
      obtain ⟨l2, hl2, hq1⟩ := List.mem_map.mp hq
      rw [← hq1, hb l1 hl1 hz, zero_mul, ite_self]
  rw [List.map_congr_left step]
  exact sum_ite_eq_of_nodup (List.replicate n 0) (fun _ => c * (L.map a).sum) L hnd hzm

end PointMass

theorem valSum_pair_map (f : List ℕ → ℚ) (L : List (List ℕ)) :
    ((L.map (fun l => (l, f l))).map (fun p => p.2)).sum = (L.map f).sum := by
  rw [List.map_map]
  apply congrArg List.sum
  apply List.map_congr_left
  intro l _
  rfl

/-- C1 (amended): with full overlap `mm = 1`, `computeWalkOutputWithMM` does
not return `computeWalkOutput`'s own (unnormalized) distribution; it returns
its normalization and only after convolving with the perpendicular branch.
Whenever the backend makes the perpendicular branch (coherent intensity
`(1-1)*alphaSq`, heralded input removed) a point mass `c ≠ 0` on the
all-zero outcome, and `max_photons = 2` (the only cutoff unaffected by the
convolution's own truncation), the mismatch result agrees pointwise with
`normalizeProbDict (computeWalkOutput …)`. -/
theorem withMM_full_overlap_eq_normalized_ideal
    (backend : List Op → List ℕ → ℚ) (nSteps : ℤ)
    (r alphaSq eta gamma n_noise c : ℚ)
    (hc : c ≠ 0)
    (hzero : backend (buildWalkProgram nSteps r ((1 - 1) * alphaSq) gamma eta n_noise 0)
        (1 :: List.replicate (2 * nSteps + 2).toNat 0) = c)
    (hrest : (generate_photon_outcomes (2 * nSteps + 2) 2).all
        (fun l => decide (l = List.replicate (2 * nSteps + 2).toNat 0)
          || decide (backend
              (buildWalkProgram nSteps r ((1 - 1) * alphaSq) gamma eta n_noise 0)
              (1 :: l) = 0)) = true) :
    ∀ s : List ℕ,
      dictGet s (computeWalkOutputWithMM backend nSteps r alphaSq eta gamma 1 2 n_noise)
        = dictGet s (normalizeProbDict
            (computeWalkOutput backend nSteps r alphaSq eta gamma 2 n_noise 1)) := by
  intro s
  have hnd := generate_photon_outcomes_nodup (2 * nSteps + 2) 2
  have hlen : ∀ l ∈ generate_photon_outcomes (2 * nSteps + 2) 2,
      l.length = (2 * nSteps + 2).toNat :=
    fun l hl => ((mem_generate_two _ l).mp hl).1
  have hsum : ∀ l ∈ generate_photon_outcomes (2 * nSteps + 2) 2, ((l.sum : ℕ) : ℤ) ≤ 2 :=
    fun l hl => ((mem_generate_two _ l).mp hl).2
  have hcomp : ∀ t : List ℕ, t.length = (2 * nSteps + 2).toNat → ((t.sum : ℕ) : ℤ) ≤ 2 →
      t ∈ generate_photon_outcomes (2 * nSteps + 2) 2 :=
    fun t h1 h2 => (mem_generate_two _ t).mpr ⟨h1, h2⟩
  have hzm := replicate_mem_generate_two (2 * nSteps + 2)
  have hb : ∀ l ∈ generate_photon_outcomes (2 * nSteps + 2) 2,
      l ≠ List.replicate (2 * nSteps + 2).toNat 0 →
      backend (buildWalkProgram nSteps r ((1 - 1) * alphaSq) gamma eta n_noise 0)
        (1 :: l) = 0 := by
    intro l hl hne
    have hor := List.all_eq_true.mp hrest l hl
    simp only [Bool.or_eq_true, decide_eq_true_eq] at hor
    rcases hor with h | h
    · exact absurd h hne
    · exact h
  unfold computeWalkOutputWithMM
  simp only [computeWalkOutput_eq_map]
  rw [one_mul]
  rw [dictGet_normalize, dictGet_normalize]
  rw [conv_pointmass_right_valSum hnd hlen hsum hzm hzero hb, valSum_pair_map]
  by_cases hs : s ∈ generate_photon_outcomes (2 * nSteps + 2) 2
  · have hval := @conv_pointmass_right_getD (generate_photon_outcomes (2 * nSteps + 2) 2)
      ((2 * nSteps + 2).toNat)
      (fun label => backend (buildWalkProgram nSteps r alphaSq gamma eta n_noise 1)
        (1 :: label))
      (fun label => backend (buildWalkProgram nSteps r ((1 - 1) * alphaSq) gamma eta
        n_noise 0) (1 :: label))
      c hnd hlen hsum hzm hzero hb s hs
    have hnn : dictGet s (convolve_probabilities
        ((generate_photon_outcomes (2 * nSteps + 2) 2).map (fun label =>
          (label, backend (buildWalkProgram nSteps r alphaSq gamma eta n_noise 1)
            (1 :: label))))
        ((generate_photon_outcomes (2 * nSteps + 2) 2).map (fun label =>
          (label, backend (buildWalkProgram nSteps r ((1 - 1) * alphaSq) gamma eta
            n_noise 0) (1 :: label)))) 2) ≠ none := by
      rw [Ne, conv_pointmass_none_iff hnd hlen hsum hcomp hzm]
      exact fun h => h hs
    obtain ⟨v, hv⟩ := Option.ne_none_iff_exists'.mp hnn
    have hv2 : v = backend (buildWalkProgram nSteps r alphaSq gamma eta n_noise 1)
        (1 :: s) * c := by
      unfold dictGetD at hval
      rw [hv] at hval
      simpa using hval
    rw [hv, hv2, dictGet_pair_map, if_pos hs, Option.map_some', Option.map_some']
    congr 1
    exact mul_div_mul_right _ _ hc
  · have hnone := (conv_pointmass_none_iff hnd hlen hsum hcomp hzm
      (fun label => backend (buildWalkProgram nSteps r alphaSq gamma eta n_noise 1)
        (1 :: label))
      (fun label => backend (buildWalkProgram nSteps r ((1 - 1) * alphaSq) gamma eta
        n_noise 0) (1 :: label)) s).mpr hs
    rw [hnone, dictGet_pair_map, if_neg hs]
    rfl

/-- C2 (amended): with zero overlap `mm = 0`, `computeWalkOutputWithMM` does
not return the perpendicular branch's own (unnormalized) distribution; it
returns its normalization and only after convolving with the parallel
branch.  Whenever the backend makes the parallel branch (coherent intensity
`0*alphaSq`, heralded input present) a point mass `c ≠ 0` on the all-zero
outcome, and `max_photons = 2`, the mismatch result agrees pointwise with
`normalizeProbDict` of `computeWalkOutput` with the heralded input removed
(`etaFock = 0`). -/
theorem withMM_zero_overlap_eq_normalized_perp
    (backend : List Op → List ℕ → ℚ) (nSteps : ℤ)
    (r alphaSq eta gamma n_noise c : ℚ)
    (hc : c ≠ 0)
    (hzero : backend (buildWalkProgram nSteps r (0 * alphaSq) gamma eta n_noise 1)
        (1 :: List.replicate (2 * nSteps + 2).toNat 0) = c)
    (hrest : (generate_photon_outcomes (2 * nSteps + 2) 2).all
        (fun l => decide (l = List.replicate (2 * nSteps + 2).toNat 0)
          || decide (backend
              (buildWalkProgram nSteps r (0 * alphaSq) gamma eta n_noise 1)
              (1 :: l) = 0)) = true) :
    ∀ s : List ℕ,
      dictGet s (computeWalkOutputWithMM backend nSteps r alphaSq eta gamma 0 2 n_noise)
        = dictGet s (normalizeProbDict
            (computeWalkOutput backend nSteps r alphaSq eta gamma 2 n_noise 0)) := by
  intro s
  have hnd := generate_photon_outcomes_nodup (2 * nSteps + 2) 2
  have hlen : ∀ l ∈ generate_photon_outcomes (2 * nSteps + 2) 2,
      l.length = (2 * nSteps + 2).toNat :=
    fun l hl => ((mem_generate_two _ l).mp hl).1
  have hsum : ∀ l ∈ generate_photon_outcomes (2 * nSteps + 2) 2, ((l.sum : ℕ) : ℤ) ≤ 2 :=
    fun l hl => ((mem_generate_two _ l).mp hl).2
  have hcomp : ∀ t : List ℕ, t.length = (2 * nSteps + 2).toNat → ((t.sum : ℕ) : ℤ) ≤ 2 →
      t ∈ generate_photon_outcomes (2 * nSteps + 2) 2 :=
    fun t h1 h2 => (mem_generate_two _ t).mpr ⟨h1, h2⟩
  have hzm := replicate_mem_generate_two (2 * nSteps + 2)
  have hb : ∀ l ∈ generate_photon_outcomes (2 * nSteps + 2) 2,
      l ≠ List.replicate (2 * nSteps + 2).toNat 0 →
      backend (buildWalkProgram nSteps r (0 * alphaSq) gamma eta n_noise 1)
        (1 :: l) = 0 := by
    intro l hl hne
    have hor := List.all_eq_true.mp hrest l hl
    simp only [Bool.or_eq_true, decide_eq_true_eq] at hor
    rcases hor with h | h
    · exact absurd h hne
    · exact h
  unfold computeWalkOutputWithMM
  simp only [computeWalkOutput_eq_map]
  rw [show (1 - 0 : ℚ) * alphaSq = alphaSq by ring]
  rw [dictGet_normalize, dictGet_normalize]
  rw [conv_pointmass_left_valSum hnd hlen hsum hzm hzero hb, valSum_pair_map]
  by_cases hs : s ∈ generate_photon_outcomes (2 * nSteps + 2) 2
  · have hval := @conv_pointmass_left_getD (generate_photon_outcomes (2 * nSteps + 2) 2)
      ((2 * nSteps + 2).toNat)
      (fun label => backend (buildWalkProgram nSteps r alphaSq gamma eta n_noise 0)
        (1 :: label))
      (fun label => backend (buildWalkProgram nSteps r (0 * alphaSq) gamma eta
        n_noise 1) (1 :: label))
      c hnd hlen hsum hzm hzero hb s hs
    have hnn : dictGet s (convolve_probabilities
        ((generate_photon_outcomes (2 * nSteps + 2) 2).map (fun label =>
          (label, backend (buildWalkProgram nSteps r (0 * alphaSq) gamma eta n_noise 1)
            (1 :: label))))
        ((generate_photon_outcomes (2 * nSteps + 2) 2).map (fun label =>
          (label, backend (buildWalkProgram nSteps r alphaSq gamma eta
            n_noise 0) (1 :: label)))) 2) ≠ none := by
      rw [Ne, conv_pointmass_none_iff hnd hlen hsum hcomp hzm]
      exact fun h => h hs
    obtain ⟨v, hv⟩ := Option.ne_none_iff_exists'.mp hnn
    have hv2 : v = c * backend (buildWalkProgram nSteps r alphaSq gamma eta n_noise 0)
        (1 :: s) := by
      unfold dictGetD at hval
      rw [hv] at hval
      simpa using hval
    rw [hv, hv2, dictGet_pair_map, if_pos hs, Option.map_some', Option.map_some']
    congr 1
    exact mul_div_mul_left _ _ hc
  · have hnone := (conv_pointmass_none_iff hnd hlen hsum hcomp hzm
      (fun label => backend (buildWalkProgram nSteps r (0 * alphaSq) gamma eta n_noise 1)
        (1 :: label))
      (fun label => backend (buildWalkProgram nSteps r alphaSq gamma eta
        n_noise 0) (1 :: label)) s).mpr hs
    rw [hnone, dictGet_pair_map, if_neg hs]
    rfl

/-! ### Concrete evaluations with the test backends -/

theorem generate_two_two :
    generate_photon_outcomes (2 * 0 + 2) 2
      = [[0, 0], [0, 1], [0, 2], [1, 0], [1, 1], [2, 0]] := by decide

theorem generate_two_one :
    generate_photon_outcomes (2 * 0 + 2) 1 = [[0, 0], [0, 1], [1, 0]] := by decide

theorem mmTB_eta1_mp2 (r alphaSq eta gamma n_noise : ℚ) :
    computeWalkOutput mmTestBackend 0 r alphaSq eta gamma 2 n_noise 1
      = [([0, 0], (1 : ℚ)/2), ([0, 1], 1/16), ([0, 2], 0),
         ([1, 0], 1/8), ([1, 1], 0), ([2, 0], 0)] := by
  rw [computeWalkOutput_eq_map, buildWalkProgram_zero, generate_two_two]
  norm_num [mmTestBackend]

theorem mmTB_eta0_mp2 (r alphaSq eta gamma n_noise : ℚ) :
    computeWalkOutput mmTestBackend 0 r alphaSq eta gamma 2 n_noise 0
      = [([0, 0], (1 : ℚ)/3), ([0, 1], 0), ([0, 2], 0),
         ([1, 0], 0), ([1, 1], 0), ([2, 0], 0)] := by
  rw [computeWalkOutput_eq_map, buildWalkProgram_zero, generate_two_two]
  norm_num [mmTestBackend]

theorem mmTB_eta1_mp1 (r alphaSq eta gamma n_noise : ℚ) :
    computeWalkOutput mmTestBackend 0 r alphaSq eta gamma 1 n_noise 1
      = [([0, 0], (1 : ℚ)/2), ([0, 1], 1/16), ([1, 0], 1/8)] := by
  rw [computeWalkOutput_eq_map, buildWalkProgram_zero, generate_two_one]
  norm_num [mmTestBackend]

theorem mmTB_eta0_mp1 (r alphaSq eta gamma n_noise : ℚ) :
    computeWalkOutput mmTestBackend 0 r alphaSq eta gamma 1 n_noise 0
      = [([0, 0], (1 : ℚ)/3), ([0, 1], 0), ([1, 0], 0)] := by
  rw [computeWalkOutput_eq_map, buildWalkProgram_zero, generate_two_one]
  norm_num [mmTestBackend]

theorem mmTBPara_eta1_mp1 (r alphaSq eta gamma n_noise : ℚ) :
    computeWalkOutput mmTestBackendPara 0 r alphaSq eta gamma 1 n_noise 1
      = [([0, 0], (1 : ℚ)/3), ([0, 1], 0), ([1, 0], 0)] := by
  rw [computeWalkOutput_eq_map, buildWalkProgram_zero, generate_two_one]
  norm_num [mmTestBackendPara]

theorem mmTBPara_eta0_mp1 (r alphaSq eta gamma n_noise : ℚ) :
    computeWalkOutput mmTestBackendPara 0 r alphaSq eta gamma 1 n_noise 0
      = [([0, 0], (1 : ℚ)/2), ([0, 1], 1/8), ([1, 0], 1/4)] := by
  rw [computeWalkOutput_eq_map, buildWalkProgram_zero, generate_two_one]
  norm_num [mmTestBackendPara]

theorem mmTBPara_eta1_mp2 (r alphaSq eta gamma n_noise : ℚ) :
    computeWalkOutput mmTestBackendPara 0 r alphaSq eta gamma 2 n_noise 1
      = [([0, 0], (1 : ℚ)/3), ([0, 1], 0), ([0, 2], 0),
         ([1, 0], 0), ([1, 1], 0), ([2, 0], 0)] := by
  rw [computeWalkOutput_eq_map, buildWalkProgram_zero, generate_two_two]
  norm_num [mmTestBackendPara]

theorem mmTBPara_eta0_mp2 (r alphaSq eta gamma n_noise : ℚ) :
    computeWalkOutput mmTestBackendPara 0 r alphaSq eta gamma 2 n_noise 0
      = [([0, 0], (1 : ℚ)/2), ([0, 1], 1/8), ([0, 2], 0),
         ([1, 0], 1/4), ([1, 1], 0), ([2, 0], 0)] := by
  rw [computeWalkOutput_eq_map, buildWalkProgram_zero, generate_two_two]
  norm_num [mmTestBackendPara]

theorem convC1 :
    convolve_probabilities
      [([0, 0], (1 : ℚ)/2), ([0, 1], 1/16), ([0, 2], 0),
       ([1, 0], 1/8), ([1, 1], 0), ([2, 0], 0)]
      [([0, 0], (1 : ℚ)/3), ([0, 1], 0), ([0, 2], 0),
       ([1, 0], 0), ([1, 1], 0), ([2, 0], 0)] 2
    = [([0, 0], 1/6), ([0, 1], 1/48), ([0, 2], 0),
       ([1, 0], 1/24), ([1, 1], 0), ([2, 0], 0)] := by
  norm_num [convolve_probabilities, dictSet, dictGetD, dictGet]

theorem normC1 :
    normalizeProbDict
      [([0, 0], (1 : ℚ)/6), ([0, 1], 1/48), ([0, 2], 0),
       ([1, 0], 1/24), ([1, 1], 0), ([2, 0], 0)]
    = [([0, 0], 8/11), ([0, 1], 1/11), ([0, 2], 0),
       ([1, 0], 2/11), ([1, 1], 0), ([2, 0], 0)] := by
  norm_num [normalizeProbDict]

/-- Counterexample to C1: with full overlap `mm = 1` (and otherwise the
example parameter regime), `computeWalkOutputWithMM` does not return
`computeWalkOutput`'s distribution: the former is normalized (and convolved
with the perpendicular branch), the latter is the raw unnormalized map. -/
theorem withMM_full_overlap_ne_ideal :
    computeWalkOutputWithMM mmTestBackend 0 (7/100) (2/25) (7/100) 0 1 2 (1/200000)
      ≠ computeWalkOutput mmTestBackend 0 (7/100) (2/25) (7/100) 0 2 (1/200000) 1 := by
  have hL : computeWalkOutputWithMM mmTestBackend 0 (7/100) (2/25) (7/100) 0 1 2
      (1/200000)
      = [([0, 0], 8/11), ([0, 1], 1/11), ([0, 2], 0),
         ([1, 0], 2/11), ([1, 1], 0), ([2, 0], 0)] := by
    unfold computeWalkOutputWithMM
    rw [mmTB_eta1_mp2, mmTB_eta0_mp2]
    simp only [convC1, normC1]
  rw [hL, mmTB_eta1_mp2]
  intro h
  simp only [List.cons.injEq, Prod.mk.injEq] at h
  have := h.1.2
  norm_num at this

theorem convC2 :
    convolve_probabilities
      [([0, 0], (1 : ℚ)/3), ([0, 1], 0), ([0, 2], 0),
       ([1, 0], 0), ([1, 1], 0), ([2, 0], 0)]
      [([0, 0], (1 : ℚ)/2), ([0, 1], 1/8), ([0, 2], 0),
       ([1, 0], 1/4), ([1, 1], 0), ([2, 0], 0)] 2
    = [([0, 0], 1/6), ([0, 1], 1/24), ([0, 2], 0),
       ([1, 0], 1/12), ([1, 1], 0), ([2, 0], 0)] := by
  norm_num [convolve_probabilities, dictSet, dictGetD, dictGet]

theorem normC2 :
    normalizeProbDict
      [([0, 0], (1 : ℚ)/6), ([0, 1], 1/24), ([0, 2], 0),
       ([1, 0], 1/12), ([1, 1], 0), ([2, 0], 0)]
    = [([0, 0], 4/7), ([0, 1], 1/7), ([0, 2], 0),
       ([1, 0], 2/7), ([1, 1], 0), ([2, 0], 0)] := by
  norm_num [normalizeProbDict]

/-- Counterexample to C2: with zero overlap `mm = 0`,
`computeWalkOutputWithMM` does not return the distribution of
`computeWalkOutput` with the heralded input removed (`etaFock = 0`): the
former is normalized (and convolved with the parallel branch), the latter is
the raw unnormalized map. -/
theorem withMM_zero_overlap_ne_perp :
    computeWalkOutputWithMM mmTestBackendPara 0 (7/100) (2/25) (7/100) 0 0 2
        (1/200000)
      ≠ computeWalkOutput mmTestBackendPara 0 (7/100) (2/25) (7/100) 0 2 (1/200000)
          0 := by
  have hL : computeWalkOutputWithMM mmTestBackendPara 0 (7/100) (2/25) (7/100) 0 0 2
      (1/200000)
      = [([0, 0], 4/7), ([0, 1], 1/7), ([0, 2], 0),
         ([1, 0], 2/7), ([1, 1], 0), ([2, 0], 0)] := by
    unfold computeWalkOutputWithMM
    rw [mmTBPara_eta1_mp2, mmTBPara_eta0_mp2]
    simp only [convC2, normC2]
  rw [hL, mmTBPara_eta0_mp2]
  intro h
  simp only [List.cons.injEq, Prod.mk.injEq] at h
  have := h.1.2
  norm_num at this

theorem convC3A :
    convolve_probabilities
      [([0, 0], (1 : ℚ)/2), ([0, 1], 1/16), ([1, 0], 1/8)]
      [([0, 0], (1 : ℚ)/3), ([0, 1], 0), ([1, 0], 0)] 2
    = [([0, 0], 1/6), ([0, 1], 1/48), ([1, 0], 1/24),
       ([0, 2], 0), ([1, 1], 0), ([2, 0], 0)] := by
  norm_num [convolve_probabilities, dictSet, dictGetD, dictGet]

theorem normC3A :
    normalizeProbDict
      [([0, 0], (1 : ℚ)/6), ([0, 1], 1/48), ([1, 0], 1/24),
       ([0, 2], 0), ([1, 1], 0), ([2, 0], 0)]
    = [([0, 0], 8/11), ([0, 1], 1/11), ([1, 0], 2/11),
       ([0, 2], 0), ([1, 1], 0), ([2, 0], 0)] := by
  norm_num [normalizeProbDict]

theorem convC3B :
    convolve_probabilities
      [([0, 0], (1 : ℚ)/3), ([0, 1], 0), ([1, 0], 0)]
      [([0, 0], (1 : ℚ)/2), ([0, 1], 1/8), ([1, 0], 1/4)] 2
    = [([0, 0], 1/6), ([0, 1], 1/24), ([1, 0], 1/12),
       ([0, 2], 0), ([1, 1], 0), ([2, 0], 0)] := by
  norm_num [convolve_probabilities, dictSet, dictGetD, dictGet]

theorem normC3B :
    normalizeProbDict
      [([0, 0], (1 : ℚ)/6), ([0, 1], 1/24), ([1, 0], 1/12),
       ([0, 2], 0), ([1, 1], 0), ([2, 0], 0)]
    = [([0, 0], 4/7), ([0, 1], 1/7), ([1, 0], 2/7),
       ([0, 2], 0), ([1, 1], 0), ([2, 0], 0)] := by
  norm_num [normalizeProbDict]

/-- Counterexample to C3: no configuration error is reported for invalid
parameters.  With overlap `mm = 2` (outside `[0,1]`) the full pipeline runs
and its result still depends on the backend — so the backend is reached and
the caller gets an ordinary distribution, not an error; and with
`max_photons = -1` the walk silently returns the empty distribution. -/
theorem invalid_params_no_error_reported :
    computeWalkOutputWithMM mmTestBackend 0 (7/100) (2/25) (7/100) 0 2 1 (1/200000)
      ≠ computeWalkOutputWithMM mmTestBackendPara 0 (7/100) (2/25) (7/100) 0 2 1
          (1/200000) ∧
    computeWalkOutput mmTestBackend 0 (7/100) (2/25) (7/100) 0 (-1) (1/200000) 1
      = [] := by
  constructor
  · have hA : computeWalkOutputWithMM mmTestBackend 0 (7/100) (2/25) (7/100) 0 2 1
        (1/200000)
        = [([0, 0], 8/11), ([0, 1], 1/11), ([1, 0], 2/11),
           ([0, 2], 0), ([1, 1], 0), ([2, 0], 0)] := by
      unfold computeWalkOutputWithMM
      rw [mmTB_eta1_mp1, mmTB_eta0_mp1]
      simp only [convC3A, normC3A]
    have hB : computeWalkOutputWithMM mmTestBackendPara 0 (7/100) (2/25) (7/100) 0 2 1
        (1/200000)
        = [([0, 0], 4/7), ([0, 1], 1/7), ([1, 0], 2/7),
           ([0, 2], 0), ([1, 1], 0), ([2, 0], 0)] := by
      unfold computeWalkOutputWithMM
      rw [mmTBPara_eta1_mp1, mmTBPara_eta0_mp1]
      simp only [convC3B, normC3B]
    rw [hA, hB]
    intro h
    simp only [List.cons.injEq, Prod.mk.injEq] at h
    have := h.1.2
    norm_num at this
  · rfl

/-- Witness for the amended C1: `mmTestBackend` makes the perpendicular
branch a point mass `1/3` on the all-zero outcome, and at `mm = 1`,
`max_photons = 2` the mismatch pipeline agrees with the normalized ideal
walk (checked at the vacuum outcome). -/
theorem withMM_full_overlap_eq_normalized_ideal_witness :
    ((1 : ℚ)/3 ≠ 0) ∧
    (mmTestBackend
        (buildWalkProgram 0 (7/100) ((1 - 1) * (2/25)) 0 (7/100) (1/200000) 0)
        (1 :: List.replicate (2 * (0 : ℤ) + 2).toNat 0) = 1/3) ∧
    ((generate_photon_outcomes (2 * (0 : ℤ) + 2) 2).all
        (fun l => decide (l = List.replicate (2 * (0 : ℤ) + 2).toNat 0)
          || decide (mmTestBackend
              (buildWalkProgram 0 (7/100) ((1 - 1) * (2/25)) 0 (7/100) (1/200000) 0)
              (1 :: l) = 0)) = true) ∧
    dictGet [0, 0]
        (computeWalkOutputWithMM mmTestBackend 0 (7/100) (2/25) (7/100) 0 1 2
          (1/200000))
      = dictGet [0, 0]
          (normalizeProbDict
            (computeWalkOutput mmTestBackend 0 (7/100) (2/25) (7/100) 0 2 (1/200000)
              1)) := by
  refine ⟨by norm_num, ?_, ?_, ?_⟩
  · norm_num [mmTestBackend, buildWalkProgram_zero, List.replicate]
  · rw [generate_two_two]
    norm_num [mmTestBackend, buildWalkProgram_zero, List.replicate]
  · exact withMM_full_overlap_eq_normalized_ideal mmTestBackend 0 (7/100) (2/25)
      (7/100) 0 (1/200000) (1/3) (by norm_num)
      (by norm_num [mmTestBackend, buildWalkProgram_zero, List.replicate])
      (by rw [generate_two_two]
          norm_num [mmTestBackend, buildWalkProgram_zero, List.replicate])
      [0, 0]

/-- Witness for the amended C2: `mmTestBackendPara` makes the parallel
branch a point mass `1/3` on the all-zero outcome, and at `mm = 0`,
`max_photons = 2` the mismatch pipeline agrees with the normalized
perpendicular walk (checked at the vacuum outcome). -/
theorem withMM_zero_overlap_eq_normalized_perp_witness :
    ((1 : ℚ)/3 ≠ 0) ∧
    (mmTestBackendPara
        (buildWalkProgram 0 (7/100) (0 * (2/25)) 0 (7/100) (1/200000) 1)
        (1 :: List.replicate (2 * (0 : ℤ) + 2).toNat 0) = 1/3) ∧
    ((generate_photon_outcomes (2 * (0 : ℤ) + 2) 2).all
        (fun l => decide (l = List.replicate (2 * (0 : ℤ) + 2).toNat 0)
          || decide (mmTestBackendPara
              (buildWalkProgram 0 (7/100) (0 * (2/25)) 0 (7/100) (1/200000) 1)
              (1 :: l) = 0)) = true) ∧
    dictGet [0, 0]
        (computeWalkOutputWithMM mmTestBackendPara 0 (7/100) (2/25) (7/100) 0 0 2
          (1/200000))
      = dictGet [0, 0]
          (normalizeProbDict
            (computeWalkOutput mmTestBackendPara 0 (7/100) (2/25) (7/100) 0 2
              (1/200000) 0)) := by
  refine ⟨by norm_num, ?_, ?_, ?_⟩
  · norm_num [mmTestBackendPara, buildWalkProgram_zero, List.replicate]
  · rw [generate_two_two]
    norm_num [mmTestBackendPara, buildWalkProgram_zero, List.replicate]
  · exact withMM_zero_overlap_eq_normalized_perp mmTestBackendPara 0 (7/100) (2/25)
      (7/100) 0 (1/200000) (1/3) (by norm_num)
      (by norm_num [mmTestBackendPara, buildWalkProgram_zero, List.replicate])
      (by rw [generate_two_two]
          norm_num [mmTestBackendPara, buildWalkProgram_zero, List.replicate])
      [0, 0]

end UTBEWalk
